import Mathlib

/-!
# Verification of the `webgl-demos` pathfinding + steering core

Shallow embedding of the SC2-style pathfinding demo:

* `pathfinding.js` — the `Pathfinder` class: obstacle grid, A* search,
  Bresenham line-of-sight and string-pulling path smoothing.  JavaScript
  numbers are modelled as exact rationals (`ℚ`); the single call to
  `Math.sqrt` inside the A* heuristic is modelled as an explicit function
  parameter `sqrtFn : ℚ → ℚ`, since no property proved here depends on the
  value of the heuristic.
* `unit.js` — the `Unit` steering agent, modelled over `ℝ` (its arithmetic
  uses square roots via `length`/`normalize`).
* `main.js` — the group-move dispatcher's formation-offset computation.

`Uint8Array` reads are modelled by `jsGet`: an out-of-bounds read yields
`none` (JavaScript `undefined`), which compares unequal to `some v`.
-/

namespace SC2

/-- JavaScript indexed read on a `Uint8Array` (or array): a negative or
too-large index yields `undefined`, modelled as `none`. -/
def jsGet (l : List ℕ) (i : ℤ) : Option ℕ :=
  if 0 ≤ i then l.get? i.toNat else none

/-- The `Pathfinder` state: `constructor(width, height, scale)` with
`grid = new Uint8Array(width * height)` (0 = empty, 1 = obstacle). -/
structure Pathfinder where
  width : ℕ
  height : ℕ
  scale : ℚ
  grid : List ℕ

/-- World points flowing through the path pipeline (`THREE.Vector3` whose
components the pathfinder reads: `x`, `y`, `z`; paths always carry `y = 0`). -/
structure Pt where
  x : ℚ
  y : ℚ
  z : ℚ
deriving DecidableEq

instance : Inhabited Pt := ⟨⟨0, 0, 0⟩⟩

/-- World→cell mapping used throughout `pathfinding.js`:
`Math.floor(x / this.scale + this.width / 2)`. -/
def toCellX (pf : Pathfinder) (w : ℚ) : ℤ :=
  ⌊w / pf.scale + (pf.width : ℚ) / 2⌋

/-- World→cell mapping for the `z` axis:
`Math.floor(z / this.scale + this.height / 2)`. -/
def toCellZ (pf : Pathfinder) (w : ℚ) : ℤ :=
  ⌊w / pf.scale + (pf.height : ℚ) / 2⌋

/-- Cell→world mapping used by path reconstruction:
`(cell - dim / 2) * scale + scale / 2` on each axis, `y = 0`. -/
def worldPt (pf : Pathfinder) (c : ℤ × ℤ) : Pt :=
  ⟨((c.1 : ℚ) - (pf.width : ℚ) / 2) * pf.scale + pf.scale / 2,
   0,
   ((c.2 : ℚ) - (pf.height : ℚ) / 2) * pf.scale + pf.scale / 2⟩

/-- `Pathfinder.isValid(x, y)`. -/
def Pathfinder.isValid (pf : Pathfinder) (x y : ℤ) : Bool :=
  decide (0 ≤ x ∧ x < (pf.width : ℤ) ∧ 0 ≤ y ∧ y < (pf.height : ℤ))

/-- `Pathfinder.isBlocked(x, y)`: `this.grid[y * this.width + x] === 1`.
No bounds check — an out-of-array read yields `undefined`, which is not `1`. -/
def Pathfinder.isBlocked (pf : Pathfinder) (x y : ℤ) : Bool :=
  jsGet pf.grid (y * (pf.width : ℤ) + x) == some 1

/-- `Pathfinder.setObstacle(x, z, isObstacle)`: marks a cell; out-of-range
input is a silent no-op. -/
def Pathfinder.setObstacle (pf : Pathfinder) (x z : ℚ) (isObstacle : Bool) :
    Pathfinder :=
  let gx := toCellX pf x
  let gz := toCellZ pf z
  if 0 ≤ gx ∧ gx < (pf.width : ℤ) ∧ 0 ≤ gz ∧ gz < (pf.height : ℤ) then
    { pf with
      grid := pf.grid.set (gz * (pf.width : ℤ) + gx).toNat
        (if isObstacle then 1 else 0) }
  else pf

/-- `Pathfinder.isWalkableAt(x, z)`: `false` outside the grid, otherwise
`this.grid[gz * this.width + gx] === 0`. -/
def Pathfinder.isWalkableAt (pf : Pathfinder) (x z : ℚ) : Bool :=
  let gx := toCellX pf x
  let gz := toCellZ pf z
  if gx < 0 ∨ (pf.width : ℤ) ≤ gx ∨ gz < 0 ∨ (pf.height : ℤ) ≤ gz then false
  else jsGet pf.grid (gz * (pf.width : ℤ) + gx) == some 0

/-! ## Line of sight (Bresenham) -/

/-- The body of the Bresenham `while (true)` loop of
`Pathfinder.hasLineOfSight`.  The loop takes at most `max dx dy + 1`
iterations (each iteration other than the final one advances `x0` or `y0`
by one toward the target), so the `(dx + dy).toNat + 1` fuel supplied by
`hasLineOfSight` below is never exhausted. -/
def losGo (pf : Pathfinder) (x1 y1 sx sy dx dy : ℤ) :
    ℕ → ℤ → ℤ → ℤ → Bool
  | 0, _, _, _ => true
  | fuel + 1, x0, y0, err =>
    if pf.isBlocked x0 y0 then false
    else if x0 = x1 ∧ y0 = y1 then true
    else
      let e2 := 2 * err
      let x0' := if e2 > -dy then x0 + sx else x0
      let err1 := if e2 > -dy then err - dy else err
      let y0' := if e2 < dx then y0 + sy else y0
      let err2 := if e2 < dx then err1 + dx else err1
      losGo pf x1 y1 sx sy dx dy fuel x0' y0' err2

/-- `Pathfinder.hasLineOfSight(start, end)`: rasterizes the segment between
the two mapped cells with Bresenham's algorithm; any traversed blocked cell
invalidates the sight line. -/
def Pathfinder.hasLineOfSight (pf : Pathfinder) (s e : Pt) : Bool :=
  let x0 := toCellX pf s.x
  let y0 := toCellZ pf s.z
  let x1 := toCellX pf e.x
  let y1 := toCellZ pf e.z
  let dx := |x1 - x0|
  let dy := |y1 - y0|
  let sx : ℤ := if x0 < x1 then 1 else -1
  let sy : ℤ := if y0 < y1 then 1 else -1
  losGo pf x1 y1 sx sy dx dy ((dx + dy).toNat + 1) x0 y0 (dx - dy)

/-! ## Path smoothing (string pulling) -/

/-- The look-ahead of one `smoothPath` iteration: scan candidate indices
`i = path.length - 1, …, currentIdx + 2` (farthest first) and return the
first with line of sight from `path[currentIdx]`; default to
`currentIdx + 1`. -/
def findNext (pf : Pathfinder) (path : List Pt) (c : ℕ) : ℕ :=
  ((List.range' (c + 2) (path.length - (c + 2))).reverse.find? fun i =>
      pf.hasLineOfSight (path.getD c default) (path.getD i default)).getD
    (c + 1)

/-- The `while (currentIdx < path.length - 1)` loop of
`Pathfinder.smoothPath`, pushing `path[nextIdx]` each iteration.  Each
iteration strictly increases `currentIdx`, so the loop runs at most
`path.length - 1` times; the fuel `path.length` supplied by `smoothPath` is
never exhausted. -/
def smoothGo (pf : Pathfinder) (path : List Pt) : ℕ → ℕ → List Pt
  | 0, _ => []
  | fuel + 1, c =>
    if c < path.length - 1 then
      let n := findNext pf path c
      path.getD n default :: smoothGo pf path fuel n
    else []

/-- The indices pushed by `smoothGo` (proof helper mirroring its recursion). -/
def smoothIdx (pf : Pathfinder) (path : List Pt) : ℕ → ℕ → List ℕ
  | 0, _ => []
  | fuel + 1, c =>
    if c < path.length - 1 then
      findNext pf path c :: smoothIdx pf path fuel (findNext pf path c)
    else []

/-- `Pathfinder.smoothPath(path)`: string pulling; paths of length ≤ 2 are
returned unchanged, otherwise the result starts at `path[0]` and repeatedly
jumps to the farthest visible point. -/
def Pathfinder.smoothPath (pf : Pathfinder) (path : List Pt) : List Pt :=
  if path.length ≤ 2 then path
  else path.getD 0 default :: smoothGo pf path path.length 0

/-! ## A* search -/

/-- A search node: cell coordinate, cost-so-far `g`, heuristic `h`, total
`f = g + h`, and the parent reference followed by path reconstruction.
Parent chains are frozen once a node is expanded, so value semantics
coincides with the JavaScript object graph. -/
structure Node where
  x : ℤ
  y : ℤ
  g : ℚ
  h : ℚ
  f : ℚ
  parent : Option Node

instance : Inhabited Node := ⟨⟨0, 0, 0, 0, 0, none⟩⟩

/-- The 8 neighbor offsets, in source order. -/
def neighborOffsets : List (ℤ × ℤ) :=
  [(0, -1), (1, -1), (1, 0), (1, 1), (0, 1), (-1, 1), (-1, 0), (-1, -1)]

/-- `openList.find(n => n.x === nx && n.y === ny)` followed by the in-place
relaxation `if (gScore < neighbor.g) { … }`: returns `none` when no open
node occupies the cell, otherwise the open list with the first (unique)
matching node updated. -/
def relaxInOpen (nx ny : ℤ) (gScore : ℚ) (cur : Node) :
    List Node → Option (List Node)
  | [] => none
  | n :: rest =>
    if n.x = nx ∧ n.y = ny then
      some
        (if gScore < n.g then
          { n with g := gScore, parent := some cur, f := gScore + n.h } :: rest
        else n :: rest)
    else (relaxInOpen nx ny gScore cur rest).map (n :: ·)

/-- Processing of one neighbor offset inside the A* expansion loop:
validity, blockage, closed-set and corner-cutting checks, then either a
relaxation of the existing open node or a push of a fresh node. -/
def relaxOffset (pf : Pathfinder) (sqrtFn : ℚ → ℚ) (ex ey : ℤ)
    (closed : List (ℤ × ℤ)) (cur : Node) (opn : List Node) (off : ℤ × ℤ) :
    List Node :=
  let nx := cur.x + off.1
  let ny := cur.y + off.2
  if ¬ pf.isValid nx ny = true ∨ pf.isBlocked nx ny = true ∨
      (nx, ny) ∈ closed then opn
  else if (|off.1| = 1 ∧ |off.2| = 1) ∧
      (pf.isBlocked (cur.x + off.1) cur.y = true ∨
        pf.isBlocked cur.x (cur.y + off.2) = true) then opn
  else
    let gScore := cur.g + (if off.1 = 0 ∨ off.2 = 0 then 1 else 1414 / 1000)
    match relaxInOpen nx ny gScore cur opn with
    | some opn' => opn'
    | none =>
      let hv := sqrtFn (((nx : ℚ) - (ex : ℚ)) ^ 2 + ((ny : ℚ) - (ey : ℚ)) ^ 2)
      opn ++ [⟨nx, ny, gScore, hv, gScore + hv, some cur⟩]

/-- The `for (let offset of neighbors)` expansion loop. -/
def expandNeighbors (pf : Pathfinder) (sqrtFn : ℚ → ℚ) (ex ey : ℤ)
    (closed : List (ℤ × ℤ)) (cur : Node) (opn : List Node) : List Node :=
  neighborOffsets.foldl (relaxOffset pf sqrtFn ex ey closed cur) opn

/-- The linear scan for the open node of minimum `f`
(`if (openList[i].f < openList[lowestIndex].f) lowestIndex = i`). -/
def lowestFIdx (l : List Node) : ℕ :=
  (List.range l.length).foldl
    (fun best i =>
      if (l.getD i default).f < (l.getD best default).f then i else best)
    0

/-- Path reconstruction: push the world point of every node from the goal
back along the parent chain (the caller reverses the result). -/
def reconstruct (pf : Pathfinder) : Node → List Pt
  | ⟨x, y, _, _, _, none⟩ => [worldPt pf (x, y)]
  | ⟨x, y, _, _, _, some p⟩ => worldPt pf (x, y) :: reconstruct pf p

/-- The cells visited by `reconstruct` (proof helper). -/
def reconstructCells : Node → List (ℤ × ℤ)
  | ⟨x, y, _, _, _, none⟩ => [(x, y)]
  | ⟨x, y, _, _, _, some p⟩ => (x, y) :: reconstructCells p

/-- The `while (openList.length > 0)` loop of `Pathfinder.findPath`.  Each
iteration that does not return moves one more distinct valid cell into the
closed set, so the loop runs at most `width * height + 1` times; the fuel
supplied by `findPathRaw` below is never exhausted. -/
def aStarLoop (pf : Pathfinder) (sqrtFn : ℚ → ℚ) (ex ey : ℤ) :
    ℕ → List Node → List (ℤ × ℤ) → List Pt
  | 0, _, _ => []
  | fuel + 1, opn, closed =>
    if opn.isEmpty then []
    else
      let li := lowestFIdx opn
      let cur := opn.getD li default
      if cur.x = ex ∧ cur.y = ey then (reconstruct pf cur).reverse
      else
        let closed' := (cur.x, cur.y) :: closed
        aStarLoop pf sqrtFn ex ey fuel
          (expandNeighbors pf sqrtFn ex ey closed' cur (opn.eraseIdx li))
          closed'

/-- `Pathfinder.findPath(startX, startZ, endX, endZ)` up to (but not
including) the final `smoothPath` call: the validity and blocked-goal early
returns, then the A* loop returning the reversed reconstructed raw path. -/
def findPathRaw (pf : Pathfinder) (sqrtFn : ℚ → ℚ)
    (startX startZ endX endZ : ℚ) : List Pt :=
  let sx := toCellX pf startX
  let sy := toCellZ pf startZ
  let ex := toCellX pf endX
  let ey := toCellZ pf endZ
  if ¬ (pf.isValid sx sy = true ∧ pf.isValid ex ey = true) then []
  else if pf.isBlocked ex ey then []
  else
    aStarLoop pf sqrtFn ex ey (pf.width * pf.height + 1)
      [⟨sx, sy, 0, 0, 0, none⟩] []

/-- `Pathfinder.findPath`: the raw search result passed through
`smoothPath`.  (On the failure paths the raw result is `[]` and
`smoothPath [] = []`, so composing unconditionally agrees with the source's
direct `return []`.) -/
def Pathfinder.findPath (pf : Pathfinder) (sqrtFn : ℚ → ℚ)
    (startX startZ endX endZ : ℚ) : List Pt :=
  pf.smoothPath (findPathRaw pf sqrtFn startX startZ endX endZ)

/-! ## The steering agent (`unit.js`)

`THREE.Vector3` arithmetic over exact reals.  `normalize()` is
`divideScalar(length() || 1)` and `divideScalar(s)` is
`multiplyScalar(1 / s)`. -/

/-- A `THREE.Vector3` as used by `unit.js`, over `ℝ`. -/
structure Vec3 where
  x : ℝ
  y : ℝ
  z : ℝ

/-- Component-wise vector addition. -/
def vadd (a b : Vec3) : Vec3 := ⟨a.x + b.x, a.y + b.y, a.z + b.z⟩

/-- Component-wise vector subtraction (`subVectors`). -/
def vsub (a b : Vec3) : Vec3 := ⟨a.x - b.x, a.y - b.y, a.z - b.z⟩

/-- `multiplyScalar`. -/
def vscale (c : ℝ) (v : Vec3) : Vec3 := ⟨c * v.x, c * v.y, c * v.z⟩

/-- The zero vector (`new THREE.Vector3()`). -/
def vzero : Vec3 := ⟨0, 0, 0⟩

/-- `lengthSq()`. -/
def vlenSq (v : Vec3) : ℝ := v.x ^ 2 + v.y ^ 2 + v.z ^ 2

/-- `length()`. -/
noncomputable def vlen (v : Vec3) : ℝ := Real.sqrt (vlenSq v)

/-- `normalize()`: `divideScalar(length() || 1)`. -/
noncomputable def vnormalize (v : Vec3) : Vec3 :=
  vscale (1 / (if vlen v = 0 then 1 else vlen v)) v

/-- `a.distanceTo(b)`. -/
noncomputable def vdist (a b : Vec3) : ℝ := vlen (vsub a b)

/-- `Math.atan2(y, x)`, i.e. the argument of the complex number `x + y·i`. -/
noncomputable def atan2 (yv xv : ℝ) : ℝ := Complex.arg ⟨xv, yv⟩

/-- The mutable state of a `Unit`: `mesh.position` / `mesh.rotation.y`
stand in for the rendered mesh transform. -/
structure UnitState where
  position : Vec3
  velocity : Vec3
  maxSpeed : ℝ
  maxForce : ℝ
  radius : ℝ
  path : List Vec3
  currentWaypointIndex : ℕ
  isMoving : Bool
  selected : Bool
  rotationY : ℝ

/-- A freshly constructed `Unit` at `(x, 0, z)`. -/
noncomputable def UnitState.init (x z : ℝ) : UnitState :=
  ⟨⟨x, 0, z⟩, vzero, 5, 20, 1 / 2, [], 0, false, false, 0⟩

/-- `Unit.setPath(path)`.  `none` models a missing (`undefined`) argument:
both it and an empty list fail the `path && path.length > 0` test. -/
def UnitState.setPath (u : UnitState) (path : Option (List Vec3)) :
    UnitState :=
  match path with
  | some p =>
    if 0 < p.length then
      { u with path := p, currentWaypointIndex := 1, isMoving := true }
    else { u with isMoving := false }
  | none => { u with isMoving := false }

open Classical

/-- The separation steering contribution of `Unit.update` (step 2): a
push-apart force accumulated over every overlapping neighbor.  `others` is
the neighbor array minus the unit itself (the source skips `this` by
object identity). -/
noncomputable def separationAcc (u : UnitState) (others : List UnitState) :
    Vec3 :=
  let sc :=
    others.foldl
      (fun (acc : Vec3 × ℕ) other =>
        let dist := vdist u.position other.position
        if dist < u.radius + other.radius + 1 / 5 then
          (vadd acc.1
            (vscale (1 / dist) (vnormalize (vsub u.position other.position))),
            acc.2 + 1)
        else acc)
      (vzero, 0)
  if 0 < sc.2 then
    let sep := vscale u.maxSpeed (vnormalize (vscale (1 / (sc.2 : ℝ)) sc.1))
    vscale 3 (vsub sep u.velocity)
  else vzero

/-- The integration tail of `Unit.update` (steps: velocity integration,
speed clamp, ground-plane position integration, heading snap), applied to
the accumulated acceleration and the already-updated path-following
state. -/
noncomputable def integrate (u : UnitState) (dt : ℝ) (acc : Vec3)
    (cwi : ℕ) (moving : Bool) (newPath : List Vec3) : UnitState :=
  let v1 := vadd u.velocity (vscale dt acc)
  let v2 := if vlen v1 > u.maxSpeed then vscale u.maxSpeed (vnormalize v1)
    else v1
  let m := vscale dt v2
  let pos := vadd u.position ⟨m.x, 0, m.z⟩
  let rot := if vlenSq v2 > 1 / 10 then atan2 v2.x v2.z else u.rotationY
  { u with
    position := pos
    velocity := v2
    path := newPath
    currentWaypointIndex := cwi
    isMoving := moving
    rotationY := rot }

/-- `Unit.update(dt, neighbors)`.  Returns `none` exactly when the source
would dereference `this.path[this.currentWaypointIndex]` past the end of
the path (a `TypeError` in JavaScript: `distanceTo(undefined)`); otherwise
`some` of the post-tick state. -/
noncomputable def UnitState.update (u : UnitState) (dt : ℝ)
    (others : List UnitState) : Option UnitState :=
  if u.isMoving = true ∧ 0 < u.path.length then
    if h : u.currentWaypointIndex < u.path.length then
      let target := u.path.get ⟨u.currentWaypointIndex, h⟩
      let dist := vdist u.position target
      let arrived := dist < 1 / 2 ∧ u.path.length ≤ u.currentWaypointIndex + 1
      let cwi := if dist < 1 / 2 then u.currentWaypointIndex + 1
        else u.currentWaypointIndex
      let moving : Bool := ¬ arrived
      let path' := if arrived then [] else u.path
      let accSeek :=
        if moving = true then
          let desired :=
            vscale u.maxSpeed (vnormalize (vsub target u.position))
          vscale 2 (vsub desired u.velocity)
        else vzero
      some (integrate u dt (vadd accSeek (separationAcc u others)) cwi moving
        path')
    else none
  else
    some (integrate u dt
      (vadd (vscale (-5) u.velocity) (separationAcc u others))
      u.currentWaypointIndex u.isMoving u.path)

/-! ## The group-move dispatcher (`moveSelectedUnits` in `main.js`) -/

/-- `Math.ceil(Math.sqrt(n))`, the formation column count, computed as
the least `c` with `n ≤ c * c` (for every `n < 2 ^ 52` the
double-precision expression equals this exact ceiling of the square
root).  The scan always succeeds, since `n ≤ n * n`. -/
def formationCols (n : ℕ) : ℕ :=
  ((List.range (n + 1)).find? fun c => decide (n ≤ c * c)).getD n

/-- The per-agent formation offset of `moveSelectedUnits`:
`spacing = 1.5`, `cols = ceil(sqrt(n))`, `col = i % cols`,
`row = floor(i / cols)`, offset `((col - cols / 2) * spacing,
(row - cols / 2) * spacing)`. -/
def formationOffset (n i : ℕ) : ℚ × ℚ :=
  let spacing : ℚ := 3 / 2
  let cols := formationCols n
  let col := i % cols
  let row := i / cols
  (((col : ℚ) - (cols : ℚ) / 2) * spacing,
    ((row : ℚ) - (cols : ℚ) / 2) * spacing)

/-- The offset targets `(target.x + offsetX, target.z + offsetZ)` handed to
the planner for the `n` selected agents, in selection order. -/
def unitTargets (tx tz : ℚ) (n : ℕ) : List (ℚ × ℚ) :=
  (List.range n).map fun i =>
    (tx + (formationOffset n i).1, tz + (formationOffset n i).2)

/-- The cells occupied by a list of search nodes. -/
def cellsOf (l : List Node) : List (ℤ × ℤ) := l.map fun n => (n.x, n.y)

/-- A well-formed parent chain: it is anchored at the start cell and each
link steps by one of the 8 neighbor offsets. -/
def chainOK (sx sy : ℤ) : Node → Prop
  | ⟨x, y, _, _, _, none⟩ => x = sx ∧ y = sy
  | ⟨x, y, _, _, _, some p⟩ =>
    (x - p.x, y - p.y) ∈ neighborOffsets ∧ chainOK sx sy p

/-- The A* loop invariant (stated for the obstacle-free completeness
argument): open nodes are valid, unclosed, pairwise on distinct cells and
carry well-formed parent chains; closed cells are valid and distinct;
every valid neighbor of a closed cell is closed or open; the start is
recorded; and the goal has never been expanded. -/
structure AInv (pf : Pathfinder) (sx sy ex ey : ℤ) (opn : List Node)
    (closed : List (ℤ × ℤ)) : Prop where
  opnValid : ∀ n ∈ opn, pf.isValid n.x n.y = true
  opnNotClosed : ∀ n ∈ opn, (n.x, n.y) ∉ closed
  opnNodup : (cellsOf opn).Nodup
  closedNodup : closed.Nodup
  closedValid : ∀ c ∈ closed, pf.isValid c.1 c.2 = true
  closedClosure : ∀ c ∈ closed, ∀ off ∈ neighborOffsets,
    pf.isValid (c.1 + off.1) (c.2 + off.2) = true →
    (c.1 + off.1, c.2 + off.2) ∈ closed ∨
      (c.1 + off.1, c.2 + off.2) ∈ cellsOf opn
  startIn : (sx, sy) ∈ closed ∨ (sx, sy) ∈ cellsOf opn
  goalNotClosed : (ex, ey) ∉ closed
  opnChain : ∀ n ∈ opn, chainOK sx sy n

/-- The relation between an anchor index and the index chosen by one
`smoothPath` iteration: the chosen index is farther along, in range,
either the immediate successor or sight-verified, and maximal — every
farther candidate fails the line-of-sight test. -/
def smoothStep (pf : Pathfinder) (path : List Pt) (a b : ℕ) : Prop :=
  a < b ∧ b ≤ path.length - 1 ∧
    (b = a + 1 ∨
      pf.hasLineOfSight (path.getD a default) (path.getD b default) = true) ∧
    ∀ j, b < j → j < path.length →
      pf.hasLineOfSight (path.getD a default) (path.getD j default) = false

/-! ## Concrete instances used by witnesses and counterexamples -/

/-- A 1×1 grid with a free cell. -/
def pfOne : Pathfinder := ⟨1, 1, 1, [0]⟩

/-- A 2×2 grid whose cell `(1, 1)` is blocked. -/
def pfGoalBlocked : Pathfinder := ⟨2, 2, 1, [0, 0, 0, 1]⟩

/-- A 2×2 grid with every cell blocked. -/
def pfAllBlocked : Pathfinder := ⟨2, 2, 1, [1, 1, 1, 1]⟩

/-- A 3×1 corridor whose middle cell is blocked. -/
def pfMidBlocked : Pathfinder := ⟨3, 1, 1, [0, 1, 0]⟩

/-- A 3×1 corridor with every cell free. -/
def pfCorridor : Pathfinder := ⟨3, 1, 1, [0, 0, 0]⟩

/-- The cell-center path along `pfMidBlocked` / `pfCorridor`:
cells `(0,0)`, `(1,0)`, `(2,0)`. -/
def corridorPath : List Pt := [⟨-1, 0, 0⟩, ⟨0, 0, 0⟩, ⟨1, 0, 0⟩]

/-- An agent mid-walk: two stored waypoints, cursor already at 2. -/
noncomputable def uWalking : UnitState :=
  ⟨⟨0, 0, 0⟩, ⟨0, 0, 0⟩, 5, 20, 1 / 2, [⟨0, 0, 0⟩, ⟨1, 0, 1⟩], 2, true,
    false, 0⟩

/-- An idle agent at the origin. -/
noncomputable def uIdle : UnitState :=
  ⟨⟨0, 0, 0⟩, ⟨0, 0, 0⟩, 5, 20, 1 / 2, [], 0, false, false, 0⟩

/-! ## Theorems -/

attribute [local semireducible] Rat.add Rat.sub Rat.mul Rat.inv Rat.ofScientific

/-- `setObstacle` never changes the grid dimensions or scale. -/
theorem setObstacle_dims (pf : Pathfinder) (x z : ℚ) (b : Bool) :
    (pf.setObstacle x z b).width = pf.width ∧
      (pf.setObstacle x z b).height = pf.height ∧
      (pf.setObstacle x z b).scale = pf.scale := by
  refine ⟨?_, ?_, ?_⟩ <;> unfold Pathfinder.setObstacle <;> dsimp only <;>
    split <;> rfl

/-- A world coordinate mapping out of range is reported not walkable. -/
theorem isWalkableAt_out_of_range (pf : Pathfinder) (x z : ℚ)
    (h : pf.isValid (toCellX pf x) (toCellZ pf z) = false) :
    pf.isWalkableAt x z = false := by
  unfold Pathfinder.isWalkableAt
  simp only [Pathfinder.isValid, decide_eq_false_iff_not] at h
  have hcase : toCellX pf x < 0 ∨ (pf.width : ℤ) ≤ toCellX pf x ∨
      toCellZ pf z < 0 ∨ (pf.height : ℤ) ≤ toCellZ pf z := by omega
  rw [if_pos hcase]

/-- After `setObstacle(x, z, true)` the same coordinates are not walkable
(for out-of-range coordinates both calls ignore the grid contents). -/
theorem isWalkableAt_after_block (pf : Pathfinder) (x z : ℚ) :
    (pf.setObstacle x z true).isWalkableAt x z = false := by
  obtain ⟨hw, hh, hs⟩ := setObstacle_dims pf x z true
  have hx : toCellX (pf.setObstacle x z true) x = toCellX pf x := by
    unfold toCellX; rw [hw, hs]
  have hz : toCellZ (pf.setObstacle x z true) z = toCellZ pf z := by
    unfold toCellZ; rw [hh, hs]
  unfold Pathfinder.isWalkableAt
  rw [hx, hz, hw, hh]
  set gx := toCellX pf x with hgx
  set gz := toCellZ pf z with hgz
  by_cases hin : 0 ≤ gx ∧ gx < (pf.width : ℤ) ∧ 0 ≤ gz ∧ gz < (pf.height : ℤ)
  · rw [if_neg (by omega)]
    have hgrid : (pf.setObstacle x z true).grid
        = pf.grid.set (gz * (pf.width : ℤ) + gx).toNat 1 := by
      unfold Pathfinder.setObstacle
      dsimp only
      rw [if_pos hin]
      rfl
    rw [hgrid]
    set idx := gz * (pf.width : ℤ) + gx with hidx
    have hidx0 : 0 ≤ idx :=
      add_nonneg (mul_nonneg hin.2.2.1 (by positivity)) hin.1
    unfold jsGet
    rw [if_pos hidx0]
    by_cases hlen : idx.toNat < pf.grid.length
    · rw [List.get?_set_eq_of_lt _ hlen]
      rfl
    · rw [List.get?_eq_none.mpr (by simpa [List.length_set] using hlen)]
      rfl
  · rw [if_pos (by omega)]

/-- After `setObstacle(x, z, false)` on a well-formed grid, in-range
coordinates are walkable again. -/
theorem isWalkableAt_after_unblock (pf : Pathfinder) (x z : ℚ)
    (hgridlen : pf.grid.length = pf.width * pf.height)
    (hin : pf.isValid (toCellX pf x) (toCellZ pf z) = true) :
    (pf.setObstacle x z false).isWalkableAt x z = true := by
  obtain ⟨hw, hh, hs⟩ := setObstacle_dims pf x z false
  have hx : toCellX (pf.setObstacle x z false) x = toCellX pf x := by
    unfold toCellX; rw [hw, hs]
  have hz : toCellZ (pf.setObstacle x z false) z = toCellZ pf z := by
    unfold toCellZ; rw [hh, hs]
  simp only [Pathfinder.isValid, decide_eq_true_eq] at hin
  unfold Pathfinder.isWalkableAt
  rw [hx, hz, hw, hh]
  set gx := toCellX pf x with hgx
  set gz := toCellZ pf z with hgz
  rw [if_neg (by omega)]
  have hgrid : (pf.setObstacle x z false).grid
      = pf.grid.set (gz * (pf.width : ℤ) + gx).toNat 0 := by
    unfold Pathfinder.setObstacle
    dsimp only
    rw [if_pos hin]
    rfl
  rw [hgrid]
  set idx := gz * (pf.width : ℤ) + gx with hidx
  have hidx0 : 0 ≤ idx :=
    add_nonneg (mul_nonneg hin.2.2.1 (by positivity)) hin.1
  have hidxlt : idx.toNat < pf.grid.length := by
    rw [hgridlen]
    have hlt : idx < (pf.width : ℤ) * (pf.height : ℤ) := by
      calc idx ≤ ((pf.height : ℤ) - 1) * (pf.width : ℤ)
            + ((pf.width : ℤ) - 1) :=
          add_le_add
            (mul_le_mul_of_nonneg_right (by omega) (by positivity)) (by omega)
        _ = (pf.width : ℤ) * (pf.height : ℤ) - 1 := by ring
        _ < (pf.width : ℤ) * (pf.height : ℤ) := by omega
    have hcast : ((pf.width * pf.height : ℕ) : ℤ)
        = (pf.width : ℤ) * (pf.height : ℤ) := by push_cast; ring
    omega
  unfold jsGet
  rw [if_pos hidx0, List.get?_set_eq_of_lt _ hidxlt]
  rfl

/-- C4, counterexample: on a 1×1 grid the world coordinates `(5, 0)` map
out of range, so `setObstacle(5, 0, false)` is a silent no-op and
`isWalkableAt(5, 0)` stays `false` — not `true` as claimed. -/
theorem setObstacle_clear_not_walkable_counterexample :
    ¬ ((pfOne.setObstacle 5 0 false).isWalkableAt 5 0 = true) := by decide

/-- C4 (amended): after `setObstacle(x, z, true)`, `isWalkableAt(x, z)` is
`false`; after `setObstacle(x, z, false)` it is `true` provided the
coordinates map to an in-range cell of a well-formed grid (out-of-range
edits are silent no-ops, and out-of-range queries stay `false`); and any
coordinates mapping outside the grid bounds are not walkable. -/
theorem setObstacle_isWalkableAt_spec (pf : Pathfinder) (x z : ℚ)
    (hgridlen : pf.grid.length = pf.width * pf.height) :
    (pf.setObstacle x z true).isWalkableAt x z = false ∧
      (pf.isValid (toCellX pf x) (toCellZ pf z) = true →
        (pf.setObstacle x z false).isWalkableAt x z = true) ∧
      (pf.isValid (toCellX pf x) (toCellZ pf z) = false →
        pf.isWalkableAt x z = false) :=
  ⟨isWalkableAt_after_block pf x z,
    fun hin => isWalkableAt_after_unblock pf x z hgridlen hin,
    fun hout => isWalkableAt_out_of_range pf x z hout⟩

/-! ### C10: the unguarded blocked-cell test -/

/-- C10: `isBlocked` performs no bounds check.  (1) Any cell whose flat
index `y * width + x` falls outside the backing array reads `undefined`
and is reported unblocked; (2) the flat index aliases across rows, so a
cell `(x, y)` reads the same entry as `(x - width, y + 1)`; (3) on a 2×2
grid with every cell blocked, `hasLineOfSight` between two points mapping
to cells entirely outside the grid traverses only out-of-grid cells and
returns `true`, even though (4) `isWalkableAt` reports every out-of-range
coordinate as not walkable. -/
theorem isBlocked_no_bounds_check :
    (∀ (pf : Pathfinder) (x y : ℤ),
        ¬ (0 ≤ y * (pf.width : ℤ) + x ∧
            y * (pf.width : ℤ) + x < (pf.grid.length : ℤ)) →
        pf.isBlocked x y = false) ∧
      (∀ (pf : Pathfinder) (x y : ℤ),
        pf.isBlocked x y = pf.isBlocked (x - (pf.width : ℤ)) (y + 1)) ∧
      (pfAllBlocked.hasLineOfSight ⟨9 / 2, 0, 9 / 2⟩ ⟨13 / 2, 0, 13 / 2⟩
          = true ∧
        pfAllBlocked.isWalkableAt (9 / 2) (9 / 2) = false ∧
        pfAllBlocked.isWalkableAt (13 / 2) (13 / 2) = false) ∧
      (∀ (pf : Pathfinder) (x z : ℚ),
        pf.isValid (toCellX pf x) (toCellZ pf z) = false →
        pf.isWalkableAt x z = false) := by
  refine ⟨?_, ?_, by decide, isWalkableAt_out_of_range⟩
  · intro pf x y hout
    unfold Pathfinder.isBlocked jsGet
    by_cases h0 : 0 ≤ y * (pf.width : ℤ) + x
    · rw [if_pos h0,
        List.get?_eq_none.mpr (by omega : pf.grid.length ≤ _)]
      rfl
    · rw [if_neg h0]
      rfl
  · intro pf x y
    unfold Pathfinder.isBlocked
    have halias : (y + 1) * (pf.width : ℤ) + (x - (pf.width : ℤ))
        = y * (pf.width : ℤ) + x := by ring
    rw [halias]

/-- C10, witness: the unguarded read evaluated at a negative flat index
and at an aliasing coordinate pair of the 1×1 grid. -/
theorem isBlocked_no_bounds_check_witness :
    pfOne.isBlocked (-2) 0 = false ∧
      pfOne.isWalkableAt 5 0 = false :=
  ⟨isBlocked_no_bounds_check.1 pfOne (-2) 0 (by decide),
    isBlocked_no_bounds_check.2.2.2 pfOne 5 0 (by decide)⟩

/-! ### C1: the `findPath` early returns -/

/-- C1: when the goal world point maps to an in-range blocked cell,
`findPath` returns the empty path (no nearest-walkable fallback), and when
either endpoint maps out of range it returns the empty path. -/
theorem findPath_empty_on_blocked_or_invalid (pf : Pathfinder)
    (sqrtFn : ℚ → ℚ) (sX sZ eX eZ : ℚ) :
    (pf.isValid (toCellX pf eX) (toCellZ pf eZ) = true →
      pf.isBlocked (toCellX pf eX) (toCellZ pf eZ) = true →
      pf.findPath sqrtFn sX sZ eX eZ = []) ∧
      (pf.isValid (toCellX pf sX) (toCellZ pf sZ) = false ∨
        pf.isValid (toCellX pf eX) (toCellZ pf eZ) = false →
        pf.findPath sqrtFn sX sZ eX eZ = []) := by
  constructor
  · intro hv hb
    unfold Pathfinder.findPath findPathRaw
    dsimp only
    by_cases hs : pf.isValid (toCellX pf sX) (toCellZ pf sZ) = true
    · rw [if_neg (by simp [hs, hv]), if_pos hb]
      rfl
    · rw [if_pos (by simp [hs])]
      rfl
  · intro hor
    unfold Pathfinder.findPath findPathRaw
    dsimp only
    rw [if_pos (by rcases hor with h | h <;> simp [h])]
    rfl

/-- C1, witness: on the 2×2 grid with blocked cell `(1, 1)`, searching
from the center of cell `(0, 0)` to the center of cell `(1, 1)` returns
the empty path, as does searching toward an out-of-range point. -/
theorem findPath_empty_witness :
    pfGoalBlocked.findPath (fun q => q) (-1 / 2) (-1 / 2) (1 / 2) (1 / 2)
        = [] ∧
      pfGoalBlocked.findPath (fun q => q) (-1 / 2) (-1 / 2) 5 5 = [] :=
  ⟨(findPath_empty_on_blocked_or_invalid pfGoalBlocked (fun q => q)
      (-1 / 2) (-1 / 2) (1 / 2) (1 / 2)).1 (by decide) (by decide),
    (findPath_empty_on_blocked_or_invalid pfGoalBlocked (fun q => q)
      (-1 / 2) (-1 / 2) 5 5).2 (Or.inr (by decide))⟩

/-! ### C7: `setPath` -/

/-- C7, counterexample: `setPath` with an empty path leaves the prior path
and waypoint cursor untouched — the agent `uWalking` keeps its 2-point
path and cursor 2, so the prior path is *not* replaced. -/
theorem setPath_empty_keeps_path_counterexample :
    (uWalking.setPath (some [])).path = uWalking.path ∧
      uWalking.path ≠ [] ∧
      (uWalking.setPath (some [])).currentWaypointIndex = 2 :=
  ⟨rfl, by simp [uWalking], rfl⟩

/-- C7 (amended): a non-empty path puts the agent in the Following state
with the stored path replaced and the cursor reset to 1; an empty or
absent path merely clears the Following flag, leaving the prior path and
cursor unchanged. -/
theorem setPath_spec (u : UnitState) (p : List Vec3) :
    (p ≠ [] →
      u.setPath (some p) =
        { u with path := p, currentWaypointIndex := 1, isMoving := true }) ∧
      u.setPath (some []) = { u with isMoving := false } ∧
      u.setPath none = { u with isMoving := false } := by
  refine ⟨fun hp => ?_, rfl, rfl⟩
  unfold UnitState.setPath
  dsimp only
  rw [if_pos (List.length_pos.mpr hp)]

/-- C7, witness: `setPath` applied to the idle agent with a one-point
path. -/
theorem setPath_spec_witness :
    uIdle.setPath (some [⟨1, 0, 1⟩]) =
      { uIdle with
        path := [⟨1, 0, 1⟩]
        currentWaypointIndex := 1
        isMoving := true } :=
  (setPath_spec uIdle [⟨1, 0, 1⟩]).1 (by simp)

/-- C4, witness: the amended specification evaluated on the 1×1 grid at
the in-range world origin. -/
theorem setObstacle_isWalkableAt_spec_witness :
    (pfOne.setObstacle 0 0 true).isWalkableAt 0 0 = false ∧
      (pfOne.isValid (toCellX pfOne 0) (toCellZ pfOne 0) = true →
        (pfOne.setObstacle 0 0 false).isWalkableAt 0 0 = true) ∧
      (pfOne.isValid (toCellX pfOne 0) (toCellZ pfOne 0) = false →
        pfOne.isWalkableAt 0 0 = false) :=
  setObstacle_isWalkableAt_spec pfOne 0 0 (by decide)

/-! ### C9: the formation offsets -/

/-- Splitting lemma for `List.find?`: a successful search divides the
list into a failing prefix, the hit, and a remainder. -/
theorem find?_eq_some_split {α : Type _} {p : α → Bool} {l : List α} {a : α}
    (h : l.find? p = some a) :
    ∃ l₁ l₂, l = l₁ ++ a :: l₂ ∧ (∀ b ∈ l₁, p b = false) ∧ p a = true := by
  induction l with
  | nil => simp at h
  | cons x xs ih =>
    by_cases hx : p x = true
    · rw [List.find?_cons_of_pos _ hx] at h
      obtain rfl : x = a := by simpa using h
      exact ⟨[], xs, rfl, by simp, hx⟩
    · rw [List.find?_cons_of_neg _ (by simpa using hx)] at h
      obtain ⟨l₁, l₂, rfl, h1, h2⟩ := ih h
      refine ⟨x :: l₁, l₂, rfl, ?_, h2⟩
      intro b hb
      rcases List.mem_cons.mp hb with rfl | hb
      · simpa using hx
      · exact h1 b hb

/-- `formationCols` is the exact ceiling square root: helper bounds. -/
theorem formationCols_spec (n : ℕ) :
    n ≤ formationCols n * formationCols n ∧
      ∀ c : ℕ, n ≤ c * c → formationCols n ≤ c := by
  have hself : n ≤ n * n := by
    rcases Nat.eq_zero_or_pos n with rfl | h
    · simp
    · calc n = n * 1 := (mul_one n).symm
        _ ≤ n * n := Nat.mul_le_mul_left n h
  have hsome : ((List.range (n + 1)).find? fun c => decide (n ≤ c * c)).isSome := by
    rw [List.find?_isSome]
    exact ⟨n, List.mem_range.mpr (by omega), by simpa using hself⟩
  obtain ⟨r, hr⟩ := Option.isSome_iff_exists.mp hsome
  have hcols : formationCols n = r := by unfold formationCols; rw [hr]; rfl
  obtain ⟨l₁, l₂, hsplit, hfail, hhit⟩ := find?_eq_some_split hr
  have hrle : n ≤ r * r := by simpa using hhit
  have hpair := List.pairwise_lt_range (n + 1)
  rw [hsplit] at hpair
  obtain ⟨-, hp2, hp3⟩ := List.pairwise_append.mp hpair
  refine ⟨by rw [hcols]; exact hrle, fun c hc => ?_⟩
  rw [hcols]
  by_cases hcn : c < n + 1
  · have hcmem : c ∈ l₁ ++ r :: l₂ := by
      rw [← hsplit]; exact List.mem_range.mpr hcn
    rcases List.mem_append.mp hcmem with hc1 | hc2
    · exact absurd (by simpa using hfail c hc1) (by simpa using hc)
    · rcases List.mem_cons.mp hc2 with rfl | hc3
      · exact le_rfl
      · exact (List.rel_of_pairwise_cons hp2 hc3).le
  · have hrmem : r ∈ List.range (n + 1) := by
      rw [hsplit]
      exact List.mem_append.mpr (Or.inr (List.mem_cons_self r l₂))
    have := List.mem_range.mp hrmem
    omega

/-- `formationCols n` is positive for a nonempty selection. -/
theorem formationCols_pos (n : ℕ) (hn : 0 < n) : 0 < formationCols n := by
  rcases Nat.eq_zero_or_pos (formationCols n) with h | h
  · have h1 := (formationCols_spec n).1
    rw [h] at h1
    omega
  · exact h

/-- C9, counterexample: for 4 selected agents with target `(0, 0)` the
offset `(-1.5, -1.5)` is assigned but its mirror `(1.5, 1.5)` is not, so
the offset lattice is not centered on (symmetric about) the target. -/
theorem formation_not_centered_counterexample :
    ((-3 / 2 : ℚ), (-3 / 2 : ℚ)) ∈ unitTargets 0 0 4 ∧
      ((3 / 2 : ℚ), (3 / 2 : ℚ)) ∉ unitTargets 0 0 4 := by decide

/-- C9 (amended): agent `i` of `n` is assigned the offset target
`t + ((i % c - c / 2) · 1.5, (⌊i / c⌋ - c / 2) · 1.5)` where
`c = ceil(√n)` — a square lattice with `c` columns and fixed spacing 1.5
whose agents receive pairwise distinct targets; the lattice is displaced
half a spacing toward negative `x`/`z` rather than centered on `t`. -/
theorem formation_lattice_spec (tx tz : ℚ) (n i : ℕ) (hi : i < n) :
    (unitTargets tx tz n).get? i =
        some (tx + (((i % formationCols n : ℕ) : ℚ)
              - (formationCols n : ℚ) / 2) * (3 / 2),
          tz + (((i / formationCols n : ℕ) : ℚ)
              - (formationCols n : ℚ) / 2) * (3 / 2)) ∧
      n ≤ formationCols n * formationCols n ∧
      (∀ c : ℕ, n ≤ c * c → formationCols n ≤ c) ∧
      (∀ j, j < n → j ≠ i →
        (unitTargets tx tz n).get? j ≠ (unitTargets tx tz n).get? i) := by
  have hget : ∀ k, k < n → (unitTargets tx tz n).get? k =
      some (tx + (formationOffset n k).1, tz + (formationOffset n k).2) := by
    intro k hk
    unfold unitTargets
    rw [List.get?_map, List.get?_range hk]
    rfl
  refine ⟨?_, (formationCols_spec n).1, (formationCols_spec n).2, ?_⟩
  · rw [hget i hi]
    rfl
  · intro j hj hne heq
    rw [hget j hj, hget i hi] at heq
    have hcols := formationCols_pos n (by omega)
    unfold formationOffset at heq
    dsimp only at heq
    rw [Option.some_inj, Prod.mk.injEq] at heq
    obtain ⟨h1, h2⟩ := heq
    have hmodN : j % formationCols n = i % formationCols n := by
      have hq : ((j % formationCols n : ℕ) : ℚ)
          = ((i % formationCols n : ℕ) : ℚ) := by linarith
      exact_mod_cast hq
    have hdivN : j / formationCols n = i / formationCols n := by
      have hq : ((j / formationCols n : ℕ) : ℚ)
          = ((i / formationCols n : ℕ) : ℚ) := by linarith
      exact_mod_cast hq
    exact hne (by
      have hj' := Nat.div_add_mod j (formationCols n)
      have hi' := Nat.div_add_mod i (formationCols n)
      rw [hdivN, hmodN] at hj'
      omega)

/-- C9, witness: the lattice description evaluated for the second of four
agents. -/
theorem formation_lattice_spec_witness :
    (unitTargets 0 0 4).get? 1 =
        some ((0 : ℚ) + (((1 % formationCols 4 : ℕ) : ℚ)
              - (formationCols 4 : ℚ) / 2) * (3 / 2),
          (0 : ℚ) + (((1 / formationCols 4 : ℕ) : ℚ)
              - (formationCols 4 : ℚ) / 2) * (3 / 2)) ∧
      4 ≤ formationCols 4 * formationCols 4 ∧
      (∀ c : ℕ, 4 ≤ c * c → formationCols 4 ≤ c) ∧
      (∀ j, j < 4 → j ≠ 1 →
        (unitTargets 0 0 4).get? j ≠ (unitTargets 0 0 4).get? 1) :=
  formation_lattice_spec 0 0 4 1 (by decide)

/-! ### The `findNext` specification -/

/-- The candidate scan of `findNext` only returns indices in
`[c + 2, path.length)`. -/
theorem findNext_found {pf : Pathfinder} {path : List Pt} {c i : ℕ}
    (h : ((List.range' (c + 2) (path.length - (c + 2))).reverse.find? fun j =>
        pf.hasLineOfSight (path.getD c default) (path.getD j default))
      = some i) :
    c + 2 ≤ i ∧ i < path.length ∧
      pf.hasLineOfSight (path.getD c default) (path.getD i default)
        = true := by
  have hmem := List.mem_reverse.mp (List.mem_of_find?_eq_some h)
  have hrange := List.mem_range'_1.mp hmem
  have hp := List.find?_some h
  exact ⟨hrange.1, by omega, hp⟩

/-- `findNext` always advances past the anchor. -/
theorem findNext_gt (pf : Pathfinder) (path : List Pt) (c : ℕ) :
    c < findNext pf path c := by
  unfold findNext
  rcases hf : (List.range' (c + 2) (path.length - (c + 2))).reverse.find?
      fun j => pf.hasLineOfSight (path.getD c default) (path.getD j default)
    with - | i
  · simp
  · have := (findNext_found hf).1
    simp only [Option.getD_some]
    omega

/-- `findNext` never moves past the final index. -/
theorem findNext_le (pf : Pathfinder) (path : List Pt) (c : ℕ)
    (h : c < path.length - 1) : findNext pf path c ≤ path.length - 1 := by
  unfold findNext
  rcases hf : (List.range' (c + 2) (path.length - (c + 2))).reverse.find?
      fun j => pf.hasLineOfSight (path.getD c default) (path.getD j default)
    with - | i
  · simp
    omega
  · have := (findNext_found hf).2.1
    simp only [Option.getD_some]
    omega

/-- The index chosen by `findNext` is the immediate successor or carries a
verified line of sight from the anchor. -/
theorem findNext_los (pf : Pathfinder) (path : List Pt) (c : ℕ) :
    findNext pf path c = c + 1 ∨
      pf.hasLineOfSight (path.getD c default)
        (path.getD (findNext pf path c) default) = true := by
  unfold findNext
  rcases hf : (List.range' (c + 2) (path.length - (c + 2))).reverse.find?
      fun j => pf.hasLineOfSight (path.getD c default) (path.getD j default)
    with - | i
  · exact Or.inl rfl
  · exact Or.inr (by simpa using (findNext_found hf).2.2)

/-- Maximality of `findNext`: every candidate beyond the chosen index
failed its line-of-sight test (the scan runs farthest-first). -/
theorem findNext_maximal (pf : Pathfinder) (path : List Pt) (c j : ℕ)
    (hj1 : findNext pf path c < j) (hj2 : j < path.length) :
    pf.hasLineOfSight (path.getD c default) (path.getD j default)
      = false := by
  have hgt := findNext_gt pf path c
  unfold findNext at hj1
  rcases hf : (List.range' (c + 2) (path.length - (c + 2))).reverse.find?
      fun i => pf.hasLineOfSight (path.getD c default) (path.getD i default)
    with - | i
  · rw [hf] at hj1
    simp only [Option.getD_none] at hj1
    have hmem : j ∈ List.range' (c + 2) (path.length - (c + 2)) :=
      List.mem_range'_1.mpr ⟨by omega, by omega⟩
    have := List.find?_eq_none.mp hf _ (List.mem_reverse.mpr hmem)
    simpa using this
  · rw [hf] at hj1
    simp only [Option.getD_some] at hj1
    obtain ⟨hi1, hi2, -⟩ := findNext_found hf
    obtain ⟨l₁, l₂, hsplit, hfail, -⟩ := find?_eq_some_split hf
    have hpair : (List.range' (c + 2)
        (path.length - (c + 2))).reverse.Pairwise (· > ·) := by
      rw [List.pairwise_reverse]
      exact List.pairwise_lt_range' _ _
    rw [hsplit] at hpair
    obtain ⟨-, hp2, hp3⟩ := List.pairwise_append.mp hpair
    have hjmem : j ∈ l₁ ++ i :: l₂ := by
      rw [← hsplit, List.mem_reverse]
      exact List.mem_range'_1.mpr ⟨by omega, by omega⟩
    rcases List.mem_append.mp hjmem with hj | hj
    · exact hfail j hj
    · rcases List.mem_cons.mp hj with rfl | hj
      · omega
      · have := List.rel_of_pairwise_cons hp2 hj
        omega

/-! ### Structure of `smoothGo` / `smoothPath` -/

/-- `smoothGo` returns exactly the points at the indices `smoothIdx`
records. -/
theorem smoothGo_eq_map (pf : Pathfinder) (path : List Pt) :
    ∀ fuel c, smoothGo pf path fuel c
      = (smoothIdx pf path fuel c).map fun i => path.getD i default := by
  intro fuel
  induction fuel with
  | zero => intro c; rfl
  | succ fuel ih =>
    intro c
    by_cases h : c < path.length - 1
    · simp only [smoothGo, smoothIdx, if_pos h, List.map_cons, ih]
    · simp only [smoothGo, smoothIdx, if_neg h, List.map_nil]

/-- `smoothIdx` is empty once the anchor reaches the final index. -/
theorem smoothIdx_nil (pf : Pathfinder) (path : List Pt) (fuel c : ℕ)
    (h : ¬ c < path.length - 1) : smoothIdx pf path fuel c = [] := by
  cases fuel with
  | zero => rfl
  | succ fuel => simp only [smoothIdx, if_neg h]

/-- Every recorded index lies strictly beyond its anchor and within the
path. -/
theorem smoothIdx_mem (pf : Pathfinder) (path : List Pt) :
    ∀ fuel c, ∀ i ∈ smoothIdx pf path fuel c,
      c < i ∧ i ≤ path.length - 1 := by
  intro fuel
  induction fuel with
  | zero =>
    intro c i hi
    simp [smoothIdx] at hi
  | succ fuel ih =>
    intro c i hi
    by_cases h : c < path.length - 1
    · simp only [smoothIdx, if_pos h] at hi
      rcases List.mem_cons.mp hi with rfl | hi
      · exact ⟨findNext_gt pf path c, findNext_le pf path c h⟩
      · have hn1 := findNext_gt pf path c
        have := ih (findNext pf path c) i hi
        exact ⟨by omega, this.2⟩
    · rw [smoothIdx_nil pf path _ _ h] at hi
      simp at hi

/-- With sufficient fuel the recorded indices end at the final index. -/
theorem smoothIdx_last (pf : Pathfinder) (path : List Pt) :
    ∀ fuel c, path.length - 1 - c ≤ fuel → c < path.length - 1 →
      (smoothIdx pf path fuel c).getLast? = some (path.length - 1) := by
  intro fuel
  induction fuel with
  | zero => intro c hc h; omega
  | succ fuel ih =>
    intro c hc h
    simp only [smoothIdx, if_pos h]
    have hn1 := findNext_gt pf path c
    have hn2 := findNext_le pf path c h
    by_cases hn : findNext pf path c < path.length - 1
    · have htail := ih (findNext pf path c) (by omega) hn
      cases htl : smoothIdx pf path fuel (findNext pf path c) with
      | nil => rw [htl] at htail; simp at htail
      | cons b l =>
        rw [htl] at htail
        rw [List.getLast?_cons_cons, htail]
    · have : findNext pf path c = path.length - 1 := by omega
      rw [smoothIdx_nil pf path fuel _ hn, this]
      rfl

/-- The recorded index list never exceeds the remaining path length. -/
theorem smoothIdx_length (pf : Pathfinder) (path : List Pt) :
    ∀ fuel c, (smoothIdx pf path fuel c).length ≤ path.length - 1 - c := by
  intro fuel
  induction fuel with
  | zero => intro c; simp [smoothIdx]
  | succ fuel ih =>
    intro c
    by_cases h : c < path.length - 1
    · simp only [smoothIdx, if_pos h, List.length_cons]
      have hn1 := findNext_gt pf path c
      have := ih (findNext pf path c)
      omega
    · rw [smoothIdx_nil pf path _ _ h]
      simp

/-- The anchor-to-anchor chain of one whole `smoothGo` run: each
consecutive pair satisfies `smoothStep`. -/
theorem smoothIdx_chain (pf : Pathfinder) (path : List Pt) :
    ∀ fuel c, path.length - 1 - c ≤ fuel →
      List.Chain' (smoothStep pf path) (c :: smoothIdx pf path fuel c) := by
  intro fuel
  induction fuel with
  | zero =>
    intro c hc
    have h : ¬ c < path.length - 1 := by omega
    rw [smoothIdx_nil pf path _ _ h]
    simp
  | succ fuel ih =>
    intro c hc
    by_cases h : c < path.length - 1
    · simp only [smoothIdx, if_pos h]
      rw [List.chain'_cons]
      have hn1 := findNext_gt pf path c
      refine ⟨⟨hn1, findNext_le pf path c h, findNext_los pf path c,
        fun j hj1 hj2 => findNext_maximal pf path c j hj1 hj2⟩, ?_⟩
      exact ih (findNext pf path c) (by omega)
    · rw [smoothIdx_nil pf path _ _ h]
      simp

/-- `smoothPath` on a short path is the identity. -/
theorem smoothPath_short (pf : Pathfinder) (path : List Pt)
    (h : path.length ≤ 2) : pf.smoothPath path = path := by
  unfold Pathfinder.smoothPath
  rw [if_pos h]

/-- `smoothPath` on a long path is the point list of the recorded index
chain starting at index 0. -/
theorem smoothPath_eq_map (pf : Pathfinder) (path : List Pt)
    (h : 2 < path.length) :
    pf.smoothPath path = (0 :: smoothIdx pf path path.length 0).map
      fun i => path.getD i default := by
  unfold Pathfinder.smoothPath
  rw [if_neg (by omega), List.map_cons, smoothGo_eq_map]

/-- The smoothed path of a nonempty path is nonempty. -/
theorem smoothPath_ne_nil (pf : Pathfinder) {path : List Pt}
    (h : path ≠ []) : pf.smoothPath path ≠ [] := by
  by_cases h2 : path.length ≤ 2
  · rw [smoothPath_short pf path h2]
    exact h
  · rw [smoothPath_eq_map pf path (by omega)]
    simp

/-- Smoothing preserves the first point. -/
theorem smoothPath_head? (pf : Pathfinder) (path : List Pt) :
    (pf.smoothPath path).head? = path.head? := by
  by_cases h2 : path.length ≤ 2
  · rw [smoothPath_short pf path h2]
  · rw [smoothPath_eq_map pf path (by omega)]
    simp only [List.map_cons, List.head?_cons]
    cases path with
    | nil => simp at h2
    | cons a l => rfl

/-- Smoothing preserves the last point. -/
theorem smoothPath_getLast? (pf : Pathfinder) (path : List Pt) :
    (pf.smoothPath path).getLast? = path.getLast? := by
  by_cases h2 : path.length ≤ 2
  · rw [smoothPath_short pf path h2]
  · rw [smoothPath_eq_map pf path (by omega)]
    have hidx := smoothIdx_last pf path path.length 0 (by omega) (by omega)
    rw [List.map_cons]
    cases htl : smoothIdx pf path path.length 0 with
    | nil => rw [htl] at hidx; simp at hidx
    | cons b l =>
      rw [htl] at hidx
      show (path.getD 0 default :: path.getD b default
        :: l.map fun i => path.getD i default).getLast? = path.getLast?
      rw [List.getLast?_cons_cons]
      show ((b :: l).map fun i => path.getD i default).getLast?
        = path.getLast?
      rw [List.getLast?_map, hidx, Option.map_some']
      rw [List.getLast?_eq_getElem?, List.getElem?_eq_getElem (by omega),
        List.getD_eq_getElem _ _ (by omega)]

/-- Smoothing never lengthens a path. -/
theorem smoothPath_length_le (pf : Pathfinder) (path : List Pt) :
    (pf.smoothPath path).length ≤ path.length := by
  by_cases h2 : path.length ≤ 2
  · rw [smoothPath_short pf path h2]
  · rw [smoothPath_eq_map pf path (by omega)]
    have := smoothIdx_length pf path path.length 0
    simp only [List.length_map, List.length_cons]
    omega

/-! ### C6: basic `smoothPath` postconditions -/

/-- C6: paths of length ≤ 2 are returned unchanged; longer paths smooth to
an output no longer than the input whose first and last points equal the
input's first and last points. -/
theorem smoothPath_basic_spec (pf : Pathfinder) (path : List Pt) :
    (path.length ≤ 2 → pf.smoothPath path = path) ∧
      (2 < path.length →
        (pf.smoothPath path).length ≤ path.length ∧
          (pf.smoothPath path).head? = path.head? ∧
          (pf.smoothPath path).getLast? = path.getLast?) :=
  ⟨fun h => smoothPath_short pf path h,
    fun _ => ⟨smoothPath_length_le pf path, smoothPath_head? pf path,
      smoothPath_getLast? pf path⟩⟩

/-- C6, witness: the postconditions evaluated on the three-point corridor
path over the blocked-middle corridor grid. -/
theorem smoothPath_basic_spec_witness :
    (pfMidBlocked.smoothPath corridorPath).length ≤ corridorPath.length ∧
      (pfMidBlocked.smoothPath corridorPath).head? = corridorPath.head? ∧
      (pfMidBlocked.smoothPath corridorPath).getLast?
        = corridorPath.getLast? :=
  (smoothPath_basic_spec pfMidBlocked corridorPath).2 (by decide)

/-! ### C2: line of sight between consecutive smoothed points -/

/-- C2, counterexample: smoothing the corridor path over the
blocked-middle grid returns it unchanged, and its first consecutive pair
has no line of sight (the middle cell is blocked), so not every
consecutive pair of a smoothed path has verified line of sight. -/
theorem smoothPath_los_counterexample :
    ¬ List.Chain' (fun a b => pfMidBlocked.hasLineOfSight a b = true)
      (pfMidBlocked.smoothPath corridorPath) := by
  have heq : pfMidBlocked.smoothPath corridorPath = corridorPath := by decide
  intro hch
  rw [heq] at hch
  unfold corridorPath at hch
  rw [List.chain'_cons] at hch
  exact absurd hch.1 (by decide)

/-- C2 (amended): if every consecutive pair of the input path has line of
sight (as every raw A* path from an unblocked start cell does), then every
consecutive pair of the smoothed output has line of sight.  (The fallback
step of `smoothPath` advances to the immediate successor without a sight
test, so the guarantee is inherited from the input, not unconditional.) -/
theorem smoothPath_consecutive_los (pf : Pathfinder) (path : List Pt)
    (hin : List.Chain' (fun a b => pf.hasLineOfSight a b = true) path) :
    List.Chain' (fun a b => pf.hasLineOfSight a b = true)
      (pf.smoothPath path) := by
  by_cases h2 : path.length ≤ 2
  · rwa [smoothPath_short pf path h2]
  · rw [smoothPath_eq_map pf path (by omega)]
    rw [List.chain'_map]
    have hchain := smoothIdx_chain pf path path.length 0 (by omega)
    refine List.Chain'.imp ?_ hchain
    intro a b hab
    obtain ⟨hab1, hab2, hab3, -⟩ := hab
    rcases hab3 with rfl | hlos
    · have hget := List.chain'_iff_get.mp hin
      have hb : a + 1 < path.length := by omega
      have := hget a (by omega)
      rwa [← List.getD_eq_get path default (by omega : a < path.length),
        ← List.getD_eq_get path default hb] at this
    · exact hlos

/-- C2, witness: the amended statement evaluated on the free corridor,
whose three-point path has line of sight between each consecutive pair. -/
theorem smoothPath_consecutive_los_witness :
    List.Chain' (fun a b => pfCorridor.hasLineOfSight a b = true)
      (pfCorridor.smoothPath corridorPath) :=
  smoothPath_consecutive_los pfCorridor corridorPath (by
    unfold corridorPath
    rw [List.chain'_cons, List.chain'_cons]
    exact ⟨by decide, by decide, List.chain'_singleton _⟩)

/-! ### C3: idempotence of `smoothPath` -/

/-- No jump was skipped: between smoothed points two or more positions
apart the line-of-sight test fails (the farthest-first scan already
rejected every such candidate). -/
theorem smoothPath_no_skip (pf : Pathfinder) (path : List Pt)
    (h2 : 2 < path.length) :
    ∀ k j, k + 2 ≤ j → j < (pf.smoothPath path).length →
      pf.hasLineOfSight ((pf.smoothPath path).getD k default)
        ((pf.smoothPath path).getD j default) = false := by
  intro k j hkj hj
  have hq := smoothPath_eq_map pf path h2
  set I := 0 :: smoothIdx pf path path.length 0 with hI
  have hlenq : (pf.smoothPath path).length = I.length := by
    rw [hq, List.length_map]
  have hchain := smoothIdx_chain pf path path.length 0 (by omega)
  rw [← hI] at hchain
  have hpair : I.Pairwise (· < ·) := by
    rw [← List.chain'_iff_pairwise]
    exact hchain.imp fun _ _ hab => hab.1
  have hkI : k < I.length := by omega
  have hk1I : k + 1 < I.length := by omega
  have hjI : j < I.length := by omega
  have hstep := List.chain'_iff_get.mp hchain k (by omega)
  obtain ⟨-, -, -, hmax⟩ := hstep
  have hlt : I.get ⟨k + 1, hk1I⟩ < I.get ⟨j, hjI⟩ :=
    List.pairwise_iff_get.mp hpair ⟨k + 1, hk1I⟩ ⟨j, hjI⟩
      (Fin.mk_lt_mk.mpr (by omega))
  have hjlen : I.get ⟨j, hjI⟩ < path.length := by
    obtain ⟨j', rfl⟩ : ∃ j', j = j' + 1 := ⟨j - 1, by omega⟩
    have hj'' : j' < (smoothIdx pf path path.length 0).length := by
      rw [hI, List.length_cons] at hjI
      omega
    have hmem : (smoothIdx pf path path.length 0).get ⟨j', hj''⟩
        ∈ smoothIdx pf path path.length 0 := List.get_mem _ _ _
    have := smoothIdx_mem pf path path.length 0 _ hmem
    have hIget : I.get ⟨j' + 1, hjI⟩
        = (smoothIdx pf path path.length 0).get ⟨j', hj''⟩ := rfl
    rw [hIget]
    omega
  have hres := hmax (I.get ⟨j, hjI⟩) hlt hjlen
  rw [hq, List.getD_eq_getElem _ _ (by rw [List.length_map]; omega),
    List.getD_eq_getElem _ _ (by rw [List.length_map]; omega),
    List.getElem_map, List.getElem_map]
  exact hres

/-- Re-running `smoothPath` on its own output only takes fallback steps,
so `smoothGo` walks the output one point at a time. -/
theorem smoothGo_succ_drop (pf : Pathfinder) (q : List Pt)
    (hnext : ∀ k, k < q.length - 1 → findNext pf q k = k + 1) :
    ∀ fuel c, q.length - 1 - c ≤ fuel →
      smoothGo pf q fuel c = q.drop (c + 1) := by
  intro fuel
  induction fuel with
  | zero =>
    intro c hc
    have : q.length ≤ c + 1 := by omega
    rw [List.drop_eq_nil_of_le this]
    rfl
  | succ fuel ih =>
    intro c hc
    by_cases h : c < q.length - 1
    · simp only [smoothGo, if_pos h, hnext c h]
      rw [ih (c + 1) (by omega)]
      rw [List.drop_eq_get_cons (by omega : c + 1 < q.length)]
      rw [List.getD_eq_getElem _ _ (by omega : c + 1 < q.length)]
      rfl
    · have : q.length ≤ c + 1 := by omega
      rw [List.drop_eq_nil_of_le this]
      simp only [smoothGo, if_neg h]

/-- C3: `smoothPath` is idempotent. -/
theorem smoothPath_idempotent (pf : Pathfinder) (path : List Pt) :
    pf.smoothPath (pf.smoothPath path) = pf.smoothPath path := by
  by_cases h2 : path.length ≤ 2
  · rw [smoothPath_short pf path h2, smoothPath_short pf path h2]
  · set q := pf.smoothPath path with hqdef
    by_cases hq2 : q.length ≤ 2
    · exact smoothPath_short pf q hq2
    · have hnoskip := smoothPath_no_skip pf path (by omega)
      rw [← hqdef] at hnoskip
      have hnext : ∀ k, k < q.length - 1 → findNext pf q k = k + 1 := by
        intro k hk
        unfold findNext
        have hnone : ((List.range' (k + 2) (q.length - (k + 2))).reverse.find?
            fun i => pf.hasLineOfSight (q.getD k default)
              (q.getD i default)) = none := by
          rw [List.find?_eq_none]
          intro x hx
          have hxr := List.mem_range'_1.mp (List.mem_reverse.mp hx)
          have := hnoskip k x (by omega) (by omega)
          simp only [Bool.not_eq_true]
          exact this
        rw [hnone]
        rfl
      unfold Pathfinder.smoothPath
      rw [if_neg (by omega)]
      rw [smoothGo_succ_drop pf q hnext q.length 0 (by omega)]
      have h0 : q.drop 0 = q.get ⟨0, by omega⟩ :: q.drop 1 :=
        List.drop_eq_get_cons (by omega)
      rw [List.drop_zero] at h0
      rw [List.getD_eq_getElem _ _ (by omega : 0 < q.length)]
      exact h0.symm
/-! ### C8: the speed clamp -/

/-- `length()` is nonnegative. -/
theorem vlen_nonneg (v : Vec3) : 0 ≤ vlen v := Real.sqrt_nonneg _

/-- `length()` scales by the absolute value of a scalar factor. -/
theorem vlen_scale (c : ℝ) (v : Vec3) : vlen (vscale c v) = |c| * vlen v := by
  unfold vlen vscale vlenSq
  dsimp only
  rw [show (c * v.x) ^ 2 + (c * v.y) ^ 2 + (c * v.z) ^ 2
      = c ^ 2 * (v.x ^ 2 + v.y ^ 2 + v.z ^ 2) by ring]
  rw [Real.sqrt_mul (sq_nonneg c), Real.sqrt_sq_eq_abs]

/-- The integration tail always leaves the velocity clamped to
`maxSpeed`. -/
theorem integrate_speed_le (u : UnitState) (dt : ℝ) (acc : Vec3)
    (cwi : ℕ) (moving : Bool) (newPath : List Vec3)
    (hms : 0 ≤ u.maxSpeed) :
    vlen (integrate u dt acc cwi moving newPath).velocity ≤ u.maxSpeed := by
  unfold integrate
  dsimp only
  set v1 := vadd u.velocity (vscale dt acc) with hv1
  by_cases h : vlen v1 > u.maxSpeed
  · rw [if_pos h]
    have hpos : 0 < vlen v1 := lt_of_le_of_lt hms h
    unfold vnormalize
    rw [if_neg (ne_of_gt hpos)]
    rw [vlen_scale, vlen_scale]
    rw [abs_of_nonneg hms, abs_of_nonneg (by positivity : (0 : ℝ) ≤ 1 / vlen v1)]
    rw [one_div, inv_mul_cancel₀ (ne_of_gt hpos), mul_one]
  · rw [if_neg h]
    exact le_of_not_lt h

/-- C8: for every agent with nonnegative `maxSpeed`, every `dt ≥ 0` and
every neighbor set, whenever `update` completes (it throws only when the
waypoint cursor points past the end of the path) the integrated velocity
is clamped so that its magnitude is at most `maxSpeed`. -/
theorem update_speed_clamped (u : UnitState) (dt : ℝ)
    (others : List UnitState) (hms : 0 ≤ u.maxSpeed) (hdt : 0 ≤ dt) :
    (u.update dt others).elim True
      fun u' => vlen u'.velocity ≤ u'.maxSpeed := by
  unfold UnitState.update
  by_cases h1 : u.isMoving = true ∧ 0 < u.path.length
  · rw [if_pos h1]
    by_cases h2 : u.currentWaypointIndex < u.path.length
    · rw [dif_pos h2]
      exact integrate_speed_le u dt _ _ _ _ hms
    · rw [dif_neg h2]
      trivial
  · rw [if_neg h1]
    exact integrate_speed_le u dt _ _ _ _ hms

/-- C8, witness: one `update` tick of the idle agent. -/
theorem update_speed_clamped_witness :
    (uIdle.update 1 []).elim True
      (fun u' => vlen u'.velocity ≤ u'.maxSpeed) :=
  update_speed_clamped uIdle 1 [] (by norm_num [uIdle]) (by norm_num)

/-! ### C5: A* completeness on an obstacle-free grid -/

/-- `isValid` unfolded. -/
theorem isValid_iff (pf : Pathfinder) (x y : ℤ) :
    pf.isValid x y = true ↔
      0 ≤ x ∧ x < (pf.width : ℤ) ∧ 0 ≤ y ∧ y < (pf.height : ℤ) := by
  simp [Pathfinder.isValid]

/-- A failed in-place relaxation means no open node occupies the cell. -/
theorem relaxInOpen_none_iff (nx ny : ℤ) (gScore : ℚ) (cur : Node) :
    ∀ l : List Node, relaxInOpen nx ny gScore cur l = none ↔
      ∀ n ∈ l, ¬ (n.x = nx ∧ n.y = ny) := by
  intro l
  induction l with
  | nil => simp [relaxInOpen]
  | cons n rest ih =>
    by_cases hn : n.x = nx ∧ n.y = ny
    · simp only [relaxInOpen, if_pos hn]
      simp [hn]
    · simp only [relaxInOpen, if_neg hn]
      constructor
      · intro hmap m hm
        rcases List.mem_cons.mp hm with rfl | hm
        · exact hn
        · exact (ih.mp (by
            rcases hrest : relaxInOpen nx ny gScore cur rest with - | l'
            · rfl
            · rw [hrest] at hmap; simp at hmap)) m hm
      · intro hall
        rw [ih.mpr fun m hm => hall m (List.mem_cons_of_mem n hm)]
        rfl

/-- A successful in-place relaxation leaves the occupied cells unchanged. -/
theorem relaxInOpen_some_cells (nx ny : ℤ) (gScore : ℚ) (cur : Node) :
    ∀ l l' : List Node, relaxInOpen nx ny gScore cur l = some l' →
      cellsOf l' = cellsOf l := by
  intro l
  induction l with
  | nil => intro l' h; simp [relaxInOpen] at h
  | cons n rest ih =>
    intro l' h
    by_cases hn : n.x = nx ∧ n.y = ny
    · simp only [relaxInOpen, if_pos hn] at h
      by_cases hg : gScore < n.g
      · rw [if_pos hg] at h
        rw [← Option.some_inj.mp h]
        rfl
      · rw [if_neg hg] at h
        rw [← Option.some_inj.mp h]
    · simp only [relaxInOpen, if_neg hn] at h
      rcases hrest : relaxInOpen nx ny gScore cur rest with - | r'
      · rw [hrest] at h; simp at h
      · rw [hrest] at h
        simp only [Option.map_some'] at h
        rw [← Option.some_inj.mp h]
        show (n.x, n.y) :: cellsOf r' = (n.x, n.y) :: cellsOf rest
        rw [ih r' hrest]

/-- Every node of a relaxed open list was already open or is the found
node updated with `cur` as parent. -/
theorem relaxInOpen_some_mem (nx ny : ℤ) (gScore : ℚ) (cur : Node) :
    ∀ l l' : List Node, relaxInOpen nx ny gScore cur l = some l' →
      ∀ m ∈ l', m ∈ l ∨
        (m.x = nx ∧ m.y = ny ∧ m.parent = some cur) := by
  intro l
  induction l with
  | nil => intro l' h; simp [relaxInOpen] at h
  | cons n rest ih =>
    intro l' h m hm
    by_cases hn : n.x = nx ∧ n.y = ny
    · simp only [relaxInOpen, if_pos hn] at h
      by_cases hg : gScore < n.g
      · rw [if_pos hg] at h
        rw [← Option.some_inj.mp h] at hm
        rcases List.mem_cons.mp hm with rfl | hm
        · exact Or.inr ⟨hn.1, hn.2, rfl⟩
        · exact Or.inl (List.mem_cons_of_mem n hm)
      · rw [if_neg hg] at h
        rw [← Option.some_inj.mp h] at hm
        exact Or.inl hm
    · simp only [relaxInOpen, if_neg hn] at h
      rcases hrest : relaxInOpen nx ny gScore cur rest with - | r'
      · rw [hrest] at h; simp at h
      · rw [hrest] at h
        simp only [Option.map_some'] at h
        rw [← Option.some_inj.mp h] at hm
        rcases List.mem_cons.mp hm with rfl | hm
        · exact Or.inl (List.mem_cons_self m rest)
        · rcases ih r' hrest m hm with hml | hnew
          · exact Or.inl (List.mem_cons_of_mem n hml)
          · exact Or.inr hnew

/-- Every node after processing one neighbor offset was already open or
is a fresh/updated node on the offset cell, valid, unclosed, parented at
`cur`. -/
theorem relaxOffset_mem (pf : Pathfinder) (sqrtFn : ℚ → ℚ) (ex ey : ℤ)
    (closed : List (ℤ × ℤ)) (cur : Node) (opn : List Node) (off : ℤ × ℤ) :
    ∀ m ∈ relaxOffset pf sqrtFn ex ey closed cur opn off, m ∈ opn ∨
      (m.x = cur.x + off.1 ∧ m.y = cur.y + off.2 ∧ m.parent = some cur ∧
        pf.isValid m.x m.y = true ∧ (m.x, m.y) ∉ closed) := by
  intro m hm
  unfold relaxOffset at hm
  dsimp only at hm
  by_cases hskip : ¬ pf.isValid (cur.x + off.1) (cur.y + off.2) = true ∨
      pf.isBlocked (cur.x + off.1) (cur.y + off.2) = true ∨
      (cur.x + off.1, cur.y + off.2) ∈ closed
  · rw [if_pos hskip] at hm
    exact Or.inl hm
  · rw [if_neg hskip] at hm
    push_neg at hskip
    obtain ⟨hval, -, hncl⟩ := hskip
    by_cases hcorner : (|off.1| = 1 ∧ |off.2| = 1) ∧
        (pf.isBlocked (cur.x + off.1) cur.y = true ∨
          pf.isBlocked cur.x (cur.y + off.2) = true)
    · rw [if_pos hcorner] at hm
      exact Or.inl hm
    · rw [if_neg hcorner] at hm
      rcases hrel : relaxInOpen (cur.x + off.1) (cur.y + off.2)
          (cur.g + if off.1 = 0 ∨ off.2 = 0 then 1 else 1414 / 1000) cur opn
        with - | opn'
      · rw [hrel] at hm
        rcases List.mem_append.mp hm with hml | hnew
        · exact Or.inl hml
        · rcases List.mem_singleton.mp hnew with rfl
          exact Or.inr ⟨rfl, rfl, rfl, hval, hncl⟩
      · rw [hrel] at hm
        rcases relaxInOpen_some_mem _ _ _ _ _ _ hrel m hm with hml | hnew
        · exact Or.inl hml
        · exact Or.inr ⟨hnew.1, hnew.2.1, hnew.2.2, by
            rw [hnew.1, hnew.2.1]; exact hval, by
            rw [hnew.1, hnew.2.1]; exact hncl⟩

/-- Processing one neighbor offset either keeps the occupied cells or
appends exactly the fresh offset cell (valid, unclosed, previously
unoccupied). -/
theorem relaxOffset_cells (pf : Pathfinder) (sqrtFn : ℚ → ℚ) (ex ey : ℤ)
    (closed : List (ℤ × ℤ)) (cur : Node) (opn : List Node) (off : ℤ × ℤ) :
    cellsOf (relaxOffset pf sqrtFn ex ey closed cur opn off) = cellsOf opn ∨
      (cellsOf (relaxOffset pf sqrtFn ex ey closed cur opn off)
          = cellsOf opn ++ [(cur.x + off.1, cur.y + off.2)] ∧
        (cur.x + off.1, cur.y + off.2) ∉ cellsOf opn ∧
        pf.isValid (cur.x + off.1) (cur.y + off.2) = true ∧
        (cur.x + off.1, cur.y + off.2) ∉ closed) := by
  unfold relaxOffset
  dsimp only
  by_cases hskip : ¬ pf.isValid (cur.x + off.1) (cur.y + off.2) = true ∨
      pf.isBlocked (cur.x + off.1) (cur.y + off.2) = true ∨
      (cur.x + off.1, cur.y + off.2) ∈ closed
  · rw [if_pos hskip]
    exact Or.inl rfl
  · rw [if_neg hskip]
    push_neg at hskip
    obtain ⟨hval, -, hncl⟩ := hskip
    by_cases hcorner : (|off.1| = 1 ∧ |off.2| = 1) ∧
        (pf.isBlocked (cur.x + off.1) cur.y = true ∨
          pf.isBlocked cur.x (cur.y + off.2) = true)
    · rw [if_pos hcorner]
      exact Or.inl rfl
    · rw [if_neg hcorner]
      rcases hrel : relaxInOpen (cur.x + off.1) (cur.y + off.2)
          (cur.g + if off.1 = 0 ∨ off.2 = 0 then 1 else 1414 / 1000) cur opn
        with - | opn'
      · refine Or.inr ⟨?_, ?_, hval, hncl⟩
        · show cellsOf (opn ++ [_]) = _
          unfold cellsOf
          rw [List.map_append]
          rfl
        · intro hmem
          obtain ⟨n, hn, hcell⟩ := List.mem_map.mp hmem
          exact ((relaxInOpen_none_iff _ _ _ _ opn).mp hrel n hn)
            ⟨congrArg Prod.fst hcell, congrArg Prod.snd hcell⟩
      · exact Or.inl (relaxInOpen_some_cells _ _ _ _ _ _ hrel)

/-- Processing one neighbor offset never drops an occupied cell. -/
theorem relaxOffset_cells_mono (pf : Pathfinder) (sqrtFn : ℚ → ℚ)
    (ex ey : ℤ) (closed : List (ℤ × ℤ)) (cur : Node) (opn : List Node)
    (off : ℤ × ℤ) :
    ∀ c ∈ cellsOf opn,
      c ∈ cellsOf (relaxOffset pf sqrtFn ex ey closed cur opn off) := by
  intro c hc
  rcases relaxOffset_cells pf sqrtFn ex ey closed cur opn off with h | ⟨h, -⟩
  · rwa [h]
  · rw [h]
    exact List.mem_append.mpr (Or.inl hc)

/-- On an obstacle-free grid a valid offset cell is closed or open after
its offset is processed. -/
theorem relaxOffset_cover (pf : Pathfinder) (sqrtFn : ℚ → ℚ) (ex ey : ℤ)
    (closed : List (ℤ × ℤ)) (cur : Node) (opn : List Node) (off : ℤ × ℤ)
    (hfree : ∀ x y, pf.isBlocked x y = false)
    (hval : pf.isValid (cur.x + off.1) (cur.y + off.2) = true) :
    (cur.x + off.1, cur.y + off.2) ∈ closed ∨
      (cur.x + off.1, cur.y + off.2)
        ∈ cellsOf (relaxOffset pf sqrtFn ex ey closed cur opn off) := by
  by_cases hcl : (cur.x + off.1, cur.y + off.2) ∈ closed
  · exact Or.inl hcl
  · refine Or.inr ?_
    unfold relaxOffset
    dsimp only
    rw [if_neg (by
      push_neg
      exact ⟨hval, by simp [hfree], hcl⟩)]
    rw [if_neg (by simp [hfree])]
    rcases hrel : relaxInOpen (cur.x + off.1) (cur.y + off.2)
        (cur.g + if off.1 = 0 ∨ off.2 = 0 then 1 else 1414 / 1000) cur opn
      with - | opn'
    · unfold cellsOf
      rw [List.map_append]
      exact List.mem_append.mpr (Or.inr (by simp))
    · rw [relaxInOpen_some_cells _ _ _ _ _ _ hrel]
      have hnone := (relaxInOpen_none_iff (cur.x + off.1) (cur.y + off.2)
        (cur.g + if off.1 = 0 ∨ off.2 = 0 then 1 else 1414 / 1000) cur opn)
      by_contra hnot
      have hall : ∀ n ∈ opn, ¬ (n.x = cur.x + off.1 ∧ n.y = cur.y + off.2) := by
        intro n hn hcell
        exact hnot (List.mem_map.mpr ⟨n, hn, by rw [hcell.1, hcell.2]⟩)
      rw [hnone.mpr hall] at hrel
      simp at hrel

/-- Every node after the whole expansion fold was already open or is a
node freshly parented at `cur` on one of the folded offset cells. -/
theorem foldRelax_mem (pf : Pathfinder) (sqrtFn : ℚ → ℚ) (ex ey : ℤ)
    (closed : List (ℤ × ℤ)) (cur : Node) :
    ∀ (L : List (ℤ × ℤ)) (opn : List Node),
      ∀ m ∈ L.foldl (relaxOffset pf sqrtFn ex ey closed cur) opn,
        m ∈ opn ∨ ∃ off ∈ L, m.x = cur.x + off.1 ∧ m.y = cur.y + off.2 ∧
          m.parent = some cur ∧ pf.isValid m.x m.y = true ∧
          (m.x, m.y) ∉ closed := by
  intro L
  induction L with
  | nil => intro opn m hm; exact Or.inl hm
  | cons off L ih =>
    intro opn m hm
    rw [List.foldl_cons] at hm
    rcases ih (relaxOffset pf sqrtFn ex ey closed cur opn off) m hm
      with hacc | ⟨off', hoff', hrest⟩
    · rcases relaxOffset_mem pf sqrtFn ex ey closed cur opn off m hacc
        with hopn | hnew
      · exact Or.inl hopn
      · exact Or.inr ⟨off, List.mem_cons_self off L,
          hnew.1, hnew.2.1, hnew.2.2⟩
    · exact Or.inr ⟨off', List.mem_cons_of_mem off hoff', hrest⟩

/-- The expansion fold never drops an occupied cell. -/
theorem foldRelax_cells_mono (pf : Pathfinder) (sqrtFn : ℚ → ℚ)
    (ex ey : ℤ) (closed : List (ℤ × ℤ)) (cur : Node) :
    ∀ (L : List (ℤ × ℤ)) (opn : List Node), ∀ c ∈ cellsOf opn,
      c ∈ cellsOf (L.foldl (relaxOffset pf sqrtFn ex ey closed cur) opn) := by
  intro L
  induction L with
  | nil => intro opn c hc; exact hc
  | cons off L ih =>
    intro opn c hc
    rw [List.foldl_cons]
    exact ih _ c (relaxOffset_cells_mono pf sqrtFn ex ey closed cur opn off
      c hc)

/-- The expansion fold preserves distinctness of the occupied cells. -/
theorem foldRelax_nodup (pf : Pathfinder) (sqrtFn : ℚ → ℚ) (ex ey : ℤ)
    (closed : List (ℤ × ℤ)) (cur : Node) :
    ∀ (L : List (ℤ × ℤ)) (opn : List Node), (cellsOf opn).Nodup →
      (cellsOf (L.foldl (relaxOffset pf sqrtFn ex ey closed cur) opn)).Nodup := by
  intro L
  induction L with
  | nil => intro opn h; exact h
  | cons off L ih =>
    intro opn h
    rw [List.foldl_cons]
    refine ih _ ?_
    rcases relaxOffset_cells pf sqrtFn ex ey closed cur opn off
      with heq | ⟨heq, hfresh, -⟩
    · rwa [heq]
    · rw [heq]
      simp only [List.nodup_append, List.nodup_cons, List.not_mem_nil,
        not_false_eq_true, List.nodup_nil, and_true, List.disjoint_singleton]
      exact ⟨h, trivial, hfresh⟩

/-- After the whole expansion fold on an obstacle-free grid, every valid
neighbor cell of `cur` (by a folded offset) is closed or open. -/
theorem foldRelax_cover (pf : Pathfinder) (sqrtFn : ℚ → ℚ) (ex ey : ℤ)
    (closed : List (ℤ × ℤ)) (cur : Node)
    (hfree : ∀ x y, pf.isBlocked x y = false) :
    ∀ (L : List (ℤ × ℤ)) (opn : List Node) (off : ℤ × ℤ), off ∈ L →
      pf.isValid (cur.x + off.1) (cur.y + off.2) = true →
      (cur.x + off.1, cur.y + off.2) ∈ closed ∨
        (cur.x + off.1, cur.y + off.2)
          ∈ cellsOf (L.foldl (relaxOffset pf sqrtFn ex ey closed cur) opn) := by
  intro L
  induction L with
  | nil => intro opn off h; simp at h
  | cons off0 L ih =>
    intro opn off hmem hval
    rw [List.foldl_cons]
    rcases List.mem_cons.mp hmem with rfl | hmem
    · rcases relaxOffset_cover pf sqrtFn ex ey closed cur opn off hfree hval
        with hcl | hop
      · exact Or.inl hcl
      · exact Or.inr (foldRelax_cells_mono pf sqrtFn ex ey closed cur L _ _
          hop)
    · exact ih _ off hmem hval

/-- Decomposing a list at an index: the list splits around its `i`-th
element and `eraseIdx` removes exactly that occurrence. -/
theorem eraseIdx_decomp {α : Type _} (l : List α) (i : ℕ)
    (h : i < l.length) :
    l = l.take i ++ l.get ⟨i, h⟩ :: l.drop (i + 1) ∧
      l.eraseIdx i = l.take i ++ l.drop (i + 1) := by
  constructor
  · conv_lhs => rw [← List.take_append_drop i l]
    rw [List.drop_eq_get_cons h]
  · exact List.eraseIdx_eq_take_drop_succ l i

/-- After extracting a node from an open list with distinct cells, its
cell no longer occurs. -/
theorem cell_not_mem_eraseIdx (opn : List Node) (li : ℕ)
    (h : li < opn.length) (hnd : (cellsOf opn).Nodup) :
    ((opn.get ⟨li, h⟩).x, (opn.get ⟨li, h⟩).y)
      ∉ cellsOf (opn.eraseIdx li) := by
  obtain ⟨hdec, hers⟩ := eraseIdx_decomp opn li h
  have hcells : cellsOf opn = cellsOf (opn.take li)
      ++ ((opn.get ⟨li, h⟩).x, (opn.get ⟨li, h⟩).y)
        :: cellsOf (opn.drop (li + 1)) := by
    conv_lhs => rw [hdec]
    unfold cellsOf
    rw [List.map_append]
    rfl
  rw [hcells] at hnd
  rw [List.nodup_append] at hnd
  obtain ⟨-, hnd2, hdisj⟩ := hnd
  rw [hers]
  unfold cellsOf
  rw [List.map_append]
  intro hmem
  rcases List.mem_append.mp hmem with hmem | hmem
  · exact hdisj hmem (List.mem_cons_self _ _)
  · exact (List.nodup_cons.mp hnd2).1 hmem

/-- Any occupied cell is the extracted node's cell or survives
`eraseIdx`. -/
theorem cellsOf_mem_eraseIdx (opn : List Node) (li : ℕ)
    (h : li < opn.length) :
    ∀ c ∈ cellsOf opn, c = ((opn.get ⟨li, h⟩).x, (opn.get ⟨li, h⟩).y) ∨
      c ∈ cellsOf (opn.eraseIdx li) := by
  obtain ⟨hdec, hers⟩ := eraseIdx_decomp opn li h
  intro c hc
  conv at hc => rw [hdec]
  unfold cellsOf at hc ⊢
  rw [List.map_append] at hc
  rw [hers, List.map_append]
  rcases List.mem_append.mp hc with hmem | hmem
  · exact Or.inr (List.mem_append.mpr (Or.inl hmem))
  · rcases List.mem_cons.mp hmem with rfl | hmem
    · exact Or.inl rfl
    · exact Or.inr (List.mem_append.mpr (Or.inr hmem))

/-- The nodes surviving `eraseIdx` were already open. -/
theorem mem_of_mem_eraseIdx {α : Type _} (l : List α) (i : ℕ)
    (hi : i < l.length) : ∀ x ∈ l.eraseIdx i, x ∈ l := by
  obtain ⟨hdec, hers⟩ := eraseIdx_decomp l i hi
  intro x hx
  rw [hers] at hx
  rw [hdec]
  rcases List.mem_append.mp hx with hmem | hmem
  · exact List.mem_append.mpr (Or.inl hmem)
  · exact List.mem_append.mpr (Or.inr (List.mem_cons_of_mem _ hmem))

/-- The linear minimum-`f` scan returns an index of the list. -/
theorem lowestFIdx_lt (l : List Node) (h : l ≠ []) :
    lowestFIdx l < l.length := by
  unfold lowestFIdx
  have hgen : ∀ (r : List ℕ) (init : ℕ), init < l.length →
      (∀ i ∈ r, i < l.length) →
      r.foldl (fun best i =>
        if (l.getD i default).f < (l.getD best default).f then i else best)
        init < l.length := by
    intro r
    induction r with
    | nil => intro init h1 _; exact h1
    | cons a r ih =>
      intro init h1 h2
      rw [List.foldl_cons]
      refine ih _ ?_ fun i hi => h2 i (List.mem_cons_of_mem a hi)
      by_cases hc : (l.getD a default).f < (l.getD init default).f
      · rw [if_pos hc]
        exact h2 a (List.mem_cons_self a r)
      · rw [if_neg hc]
        exact h1
  exact hgen _ 0 (List.length_pos.mpr h) fun i hi => List.mem_range.mp hi

/-- A duplicate-free list of valid cells cannot outnumber the grid. -/
theorem closed_length_le (pf : Pathfinder) (closed : List (ℤ × ℤ))
    (hnd : closed.Nodup) (hval : ∀ c ∈ closed, pf.isValid c.1 c.2 = true) :
    closed.length ≤ pf.width * pf.height := by
  classical
  set f : ℤ × ℤ → ℕ := fun c => c.2.toNat * pf.width + c.1.toNat with hf
  have hbounds : ∀ c ∈ closed, c.1.toNat < pf.width ∧ c.2.toNat < pf.height
      ∧ 0 ≤ c.1 ∧ 0 ≤ c.2 := by
    intro c hc
    have := (isValid_iff pf c.1 c.2).mp (hval c hc)
    exact ⟨by omega, by omega, this.1, this.2.2.1⟩
  have hinj : ∀ c ∈ closed, ∀ c' ∈ closed, f c = f c' → c = c' := by
    intro c hc c' hc' heq
    obtain ⟨h1, h2, h3, h4⟩ := hbounds c hc
    obtain ⟨h1', h2', h3', h4'⟩ := hbounds c' hc'
    rw [hf] at heq
    dsimp only at heq
    have hx : c.1.toNat = c'.1.toNat := by
      have e1 : (c.1.toNat + c.2.toNat * pf.width) % pf.width
          = (c'.1.toNat + c'.2.toNat * pf.width) % pf.width := by
        rw [show c.1.toNat + c.2.toNat * pf.width
            = c.2.toNat * pf.width + c.1.toNat by ring, heq]
        ring_nf
      rwa [Nat.add_mul_mod_self_right, Nat.add_mul_mod_self_right,
        Nat.mod_eq_of_lt h1, Nat.mod_eq_of_lt h1'] at e1
    have hy : c.2.toNat = c'.2.toNat := by
      have hw : 0 < pf.width := by omega
      have hmul : c.2.toNat * pf.width = c'.2.toNat * pf.width := by omega
      exact Nat.eq_of_mul_eq_mul_right hw hmul
    have hcx : c.1 = c'.1 := by omega
    have hcy : c.2 = c'.2 := by omega
    exact Prod.ext hcx hcy
  have hmapnd : (closed.map f).Nodup := hnd.map_on hinj
  have hmaplt : ∀ m ∈ closed.map f, m < pf.width * pf.height := by
    intro m hm
    obtain ⟨c, hc, rfl⟩ := List.mem_map.mp hm
    obtain ⟨h1, h2, -, -⟩ := hbounds c hc
    calc c.2.toNat * pf.width + c.1.toNat
        ≤ (pf.height - 1) * pf.width + (pf.width - 1) := by
          have := Nat.mul_le_mul_right pf.width (by omega : c.2.toNat ≤ pf.height - 1)
          omega
      _ < pf.width * pf.height := by
          have hw : 0 < pf.width := by omega
          have hh : 0 < pf.height := by omega
          calc (pf.height - 1) * pf.width + (pf.width - 1)
              = pf.height * pf.width - pf.width + (pf.width - 1) := by
                rw [Nat.sub_mul, one_mul]
            _ < pf.width * pf.height := by
                rw [Nat.mul_comm pf.height pf.width]
                have : pf.width ≤ pf.width * pf.height :=
                  Nat.le_mul_of_pos_right pf.width hh
                omega
  have hsub : (closed.map f).toFinset ⊆ Finset.range (pf.width * pf.height) := by
    intro m hm
    rw [Finset.mem_range]
    exact hmaplt m (List.mem_toFinset.mp hm)
  have := Finset.card_le_card hsub
  rw [List.toFinset_card_of_nodup hmapnd, Finset.card_range,
    List.length_map] at this
  exact this

/-- On an empty open list the closure property makes the closed set
closed under valid neighbor steps, so it contains every valid cell
8-connected to a closed cell; by induction along a staircase path, every
valid cell. -/
theorem closure_reaches (pf : Pathfinder) (closed : List (ℤ × ℤ))
    (hcl : ∀ c ∈ closed, ∀ off ∈ neighborOffsets,
      pf.isValid (c.1 + off.1) (c.2 + off.2) = true →
      (c.1 + off.1, c.2 + off.2) ∈ closed) :
    ∀ (d : ℕ) (s g : ℤ × ℤ),
      ((g.1 - s.1).natAbs + (g.2 - s.2).natAbs) ≤ d →
      pf.isValid s.1 s.2 = true → pf.isValid g.1 g.2 = true →
      s ∈ closed → g ∈ closed := by
  intro d
  induction d with
  | zero =>
    intro s g hd _ _ hs
    have h1 : g.1 = s.1 := by omega
    have h2 : g.2 = s.2 := by omega
    rwa [show g = s from Prod.ext h1 h2]
  | succ d ih =>
    intro s g hd hsv hgv hs
    by_cases heq : g = s
    · rwa [heq]
    · have hsv' := (isValid_iff pf s.1 s.2).mp hsv
      have hgv' := (isValid_iff pf g.1 g.2).mp hgv
      have hne : ¬ (g.1 = s.1 ∧ g.2 = s.2) := by
        intro hc
        exact heq (Prod.ext hc.1 hc.2)
      obtain ⟨ox, hox⟩ : ∃ v : ℤ,
          v = if s.1 < g.1 then 1 else if g.1 < s.1 then -1 else 0 := ⟨_, rfl⟩
      obtain ⟨oy, hoy⟩ : ∃ v : ℤ,
          v = if s.2 < g.2 then 1 else if g.2 < s.2 then -1 else 0 := ⟨_, rfl⟩
      have hxk : (s.1 < g.1 ∧ ox = 1) ∨ (g.1 < s.1 ∧ ox = -1) ∨
          (s.1 = g.1 ∧ ox = 0) := by
        rcases lt_trichotomy s.1 g.1 with h | h | h
        · exact Or.inl ⟨h, by rw [hox, if_pos h]⟩
        · exact Or.inr (Or.inr ⟨h, by
            rw [hox, if_neg (by omega), if_neg (by omega)]⟩)
        · exact Or.inr (Or.inl ⟨h, by
            rw [hox, if_neg (by omega), if_pos h]⟩)
      have hyk : (s.2 < g.2 ∧ oy = 1) ∨ (g.2 < s.2 ∧ oy = -1) ∨
          (s.2 = g.2 ∧ oy = 0) := by
        rcases lt_trichotomy s.2 g.2 with h | h | h
        · exact Or.inl ⟨h, by rw [hoy, if_pos h]⟩
        · exact Or.inr (Or.inr ⟨h, by
            rw [hoy, if_neg (by omega), if_neg (by omega)]⟩)
        · exact Or.inr (Or.inl ⟨h, by
            rw [hoy, if_neg (by omega), if_pos h]⟩)
      have hoffmem : (ox, oy) ∈ neighborOffsets := by
        have h1 : ox = -1 ∨ ox = 0 ∨ ox = 1 := by
          rcases hxk with ⟨-, h⟩ | ⟨-, h⟩ | ⟨-, h⟩ <;> omega
        have h2 : oy = -1 ∨ oy = 0 ∨ oy = 1 := by
          rcases hyk with ⟨-, h⟩ | ⟨-, h⟩ | ⟨-, h⟩ <;> omega
        have h3 : ¬ (ox = 0 ∧ oy = 0) := by
          intro hzero
          refine hne ⟨?_, ?_⟩
          · rcases hxk with ⟨-, h⟩ | ⟨-, h⟩ | ⟨h, -⟩ <;> omega
          · rcases hyk with ⟨-, h⟩ | ⟨-, h⟩ | ⟨h, -⟩ <;> omega
        rcases h1 with rfl | rfl | rfl <;> rcases h2 with rfl | rfl | rfl <;>
          first
          | decide
          | exact absurd ⟨rfl, rfl⟩ h3
      have hstepvalid : pf.isValid (s.1 + ox) (s.2 + oy) = true := by
        rw [isValid_iff]
        constructor
        · rcases hxk with ⟨h, rfl⟩ | ⟨h, rfl⟩ | ⟨h, rfl⟩ <;> omega
        constructor
        · rcases hxk with ⟨h, rfl⟩ | ⟨h, rfl⟩ | ⟨h, rfl⟩ <;> omega
        constructor
        · rcases hyk with ⟨h, rfl⟩ | ⟨h, rfl⟩ | ⟨h, rfl⟩ <;> omega
        · rcases hyk with ⟨h, rfl⟩ | ⟨h, rfl⟩ | ⟨h, rfl⟩ <;> omega
      have hstep : (s.1 + ox, s.2 + oy) ∈ closed :=
        hcl s hs (ox, oy) hoffmem hstepvalid
      refine ih (s.1 + ox, s.2 + oy) g ?_ hstepvalid hgv hstep
      have hdx : (g.1 - (s.1 + ox)).natAbs + (g.2 - (s.2 + oy)).natAbs
          ≤ (g.1 - s.1).natAbs + (g.2 - s.2).natAbs - 1 := by
        rcases hxk with ⟨h, rfl⟩ | ⟨h, rfl⟩ | ⟨h, rfl⟩ <;>
          rcases hyk with ⟨h', rfl⟩ | ⟨h', rfl⟩ | ⟨h', rfl⟩ <;> omega
      omega

/-- `reconstruct` is the world image of the reconstructed cell trail. -/
theorem reconstruct_eq_map (pf : Pathfinder) :
    ∀ n, reconstruct pf n = (reconstructCells n).map (worldPt pf)
  | ⟨x, y, g, h, f, none⟩ => rfl
  | ⟨x, y, g, h, f, some p⟩ => by
    show worldPt pf (x, y) :: reconstruct pf p
      = worldPt pf (x, y) :: (reconstructCells p).map (worldPt pf)
    rw [reconstruct_eq_map pf p]

/-- The reconstructed cell trail is nonempty. -/
theorem reconstructCells_ne_nil : ∀ n : Node, reconstructCells n ≠ []
  | ⟨x, y, g, h, f, none⟩ => by simp [reconstructCells]
  | ⟨x, y, g, h, f, some p⟩ => by simp [reconstructCells]

/-- The reconstructed cell trail starts at the node's own cell. -/
theorem reconstructCells_head :
    ∀ n : Node, (reconstructCells n).head? = some (n.x, n.y)
  | ⟨x, y, g, h, f, none⟩ => rfl
  | ⟨x, y, g, h, f, some p⟩ => rfl

/-- Along a well-formed chain the reconstructed trail ends at the start
cell. -/
theorem reconstructCells_last (sx sy : ℤ) :
    ∀ n : Node, chainOK sx sy n →
      (reconstructCells n).getLast? = some (sx, sy)
  | ⟨x, y, g, h, f, none⟩ => by
    intro hch
    obtain ⟨rfl, rfl⟩ := hch
    rfl
  | ⟨x, y, g, h, f, some p⟩ => by
    intro hch
    have hp := reconstructCells_last sx sy p hch.2
    show ((x, y) :: reconstructCells p).getLast? = some (sx, sy)
    cases hrc : reconstructCells p with
    | nil => exact absurd hrc (reconstructCells_ne_nil p)
    | cons c rest =>
      rw [List.getLast?_cons_cons, ← hrc, hp]

/-- Along a well-formed chain, consecutive reconstructed cells differ by
a neighbor offset (child minus parent). -/
theorem reconstructCells_chain (sx sy : ℤ) :
    ∀ n : Node, chainOK sx sy n →
      List.Chain' (fun c d => ((c.1 : ℤ) - d.1, (c.2 : ℤ) - d.2)
        ∈ neighborOffsets) (reconstructCells n)
  | ⟨x, y, g, h, f, none⟩ => fun _ => List.chain'_singleton _
  | ⟨x, y, g, h, f, some p⟩ => by
    intro hch
    show List.Chain' _ ((x, y) :: reconstructCells p)
    rw [List.chain'_cons']
    refine ⟨?_, reconstructCells_chain sx sy p hch.2⟩
    intro b hb
    rw [reconstructCells_head p] at hb
    rw [show b = (p.x, p.y) from by simpa using hb.symm]
    exact hch.1

/-- One non-goal iteration of the A* loop preserves the invariant: the
extracted node's cell moves to the closed set and its neighbors are
expanded into the open list. -/
theorem AInv_step (pf : Pathfinder) (sqrtFn : ℚ → ℚ) (sx sy ex ey : ℤ)
    (opn : List Node) (closed : List (ℤ × ℤ))
    (hfree : ∀ x y, pf.isBlocked x y = false)
    (inv : AInv pf sx sy ex ey opn closed)
    (li : ℕ) (hli : li < opn.length)
    (hng : ¬ ((opn.get ⟨li, hli⟩).x = ex ∧ (opn.get ⟨li, hli⟩).y = ey)) :
    AInv pf sx sy ex ey
      (expandNeighbors pf sqrtFn ex ey
        (((opn.get ⟨li, hli⟩).x, (opn.get ⟨li, hli⟩).y) :: closed)
        (opn.get ⟨li, hli⟩) (opn.eraseIdx li))
      (((opn.get ⟨li, hli⟩).x, (opn.get ⟨li, hli⟩).y) :: closed) := by
  have hcurmem : opn.get ⟨li, hli⟩ ∈ opn := List.get_mem _ _ _
  obtain ⟨hdec1, hdec2⟩ := eraseIdx_decomp opn li hli
  generalize hcur : opn.get ⟨li, hli⟩ = cur at *
  have hcurvalid := inv.opnValid cur hcurmem
  have hcurchain := inv.opnChain cur hcurmem
  have hcurnotcl := inv.opnNotClosed cur hcurmem
  have hsub : ∀ m ∈ opn.eraseIdx li, m ∈ opn :=
    mem_of_mem_eraseIdx opn li hli
  have hnotcur : (cur.x, cur.y) ∉ cellsOf (opn.eraseIdx li) := by
    rw [← hcur]
    exact cell_not_mem_eraseIdx opn li hli inv.opnNodup
  have hcellmem : ∀ c ∈ cellsOf opn,
      c = (cur.x, cur.y) ∨ c ∈ cellsOf (opn.eraseIdx li) := by
    rw [← hcur]
    exact cellsOf_mem_eraseIdx opn li hli
  have hcellopn : cellsOf opn = cellsOf (opn.take li)
      ++ (cur.x, cur.y) :: cellsOf (opn.drop (li + 1)) := by
    conv_lhs => rw [hdec1]
    unfold cellsOf
    rw [List.map_append]
    rfl
  have hcellopn' : cellsOf (opn.eraseIdx li)
      = cellsOf (opn.take li) ++ cellsOf (opn.drop (li + 1)) := by
    rw [hdec2]
    unfold cellsOf
    rw [List.map_append]
  have hopn'nodup : (cellsOf (opn.eraseIdx li)).Nodup := by
    rw [hcellopn']
    have h := inv.opnNodup
    rw [hcellopn] at h
    exact h.sublist
      ((List.sublist_cons_self (cur.x, cur.y) _).append_left _)
  unfold expandNeighbors
  constructor
  case opnValid =>
    intro m hm
    rcases foldRelax_mem pf sqrtFn ex ey _ cur neighborOffsets _ m hm
      with hold | ⟨off, -, hnew⟩
    · exact inv.opnValid m (hsub m hold)
    · exact hnew.2.2.2.1
  case opnNotClosed =>
    intro m hm hmem
    rcases foldRelax_mem pf sqrtFn ex ey _ cur neighborOffsets _ m hm
      with hold | ⟨off, -, hnew⟩
    · rcases List.mem_cons.mp hmem with hc | hc
      · apply hnotcur
        rw [← hc]
        exact List.mem_map.mpr ⟨m, hold, rfl⟩
      · exact inv.opnNotClosed m (hsub m hold) hc
    · exact hnew.2.2.2.2 hmem
  case opnNodup =>
    exact foldRelax_nodup pf sqrtFn ex ey _ cur neighborOffsets _ hopn'nodup
  case closedNodup =>
    exact List.nodup_cons.mpr ⟨hcurnotcl, inv.closedNodup⟩
  case closedValid =>
    intro c hc
    rcases List.mem_cons.mp hc with rfl | hc
    · exact hcurvalid
    · exact inv.closedValid c hc
  case closedClosure =>
    intro c hc off hoff hval
    rcases List.mem_cons.mp hc with rfl | hc
    · exact foldRelax_cover pf sqrtFn ex ey _ cur hfree neighborOffsets _
        off hoff hval
    · rcases inv.closedClosure c hc off hoff hval with hincl | hinopn
      · exact Or.inl (List.mem_cons_of_mem _ hincl)
      · rcases hcellmem _ hinopn with heq | hin'
        · exact Or.inl (by rw [heq]; exact List.mem_cons_self _ _)
        · exact Or.inr (foldRelax_cells_mono pf sqrtFn ex ey _ cur
            neighborOffsets _ _ hin')
  case startIn =>
    rcases inv.startIn with hincl | hinopn
    · exact Or.inl (List.mem_cons_of_mem _ hincl)
    · rcases hcellmem _ hinopn with heq | hin'
      · exact Or.inl (by rw [heq]; exact List.mem_cons_self _ _)
      · exact Or.inr (foldRelax_cells_mono pf sqrtFn ex ey _ cur
          neighborOffsets _ _ hin')
  case goalNotClosed =>
    intro hmem
    rcases List.mem_cons.mp hmem with hc | hc
    · exact hng ⟨(congrArg Prod.fst hc).symm, (congrArg Prod.snd hc).symm⟩
    · exact inv.goalNotClosed hc
  case opnChain =>
    intro m hm
    rcases foldRelax_mem pf sqrtFn ex ey _ cur neighborOffsets _ m hm
      with hold | ⟨off, hoffmem, hnew⟩
    · exact inv.opnChain m (hsub m hold)
    · obtain ⟨mx, my, mg, mh, mf, mp⟩ := m
      obtain ⟨hx, hy, hp, -, -⟩ := hnew
      dsimp only at hx hy hp
      rw [hp]
      show (mx - cur.x, my - cur.y) ∈ neighborOffsets ∧ chainOK sx sy cur
      constructor
      · rw [hx, hy]
        have hoff1 : cur.x + off.1 - cur.x = off.1 := by ring
        have hoff2 : cur.y + off.2 - cur.y = off.2 := by ring
        rw [hoff1, hoff2]
        exact hoffmem
      · exact hcurchain

/-- Completeness of the A* loop on an obstacle-free grid: with the
invariant established and enough fuel, the loop returns the reversed
reconstruction — a nonempty world path over a cell trail that starts at
the start cell, ends at the goal cell and steps by neighbor offsets. -/
theorem aStarLoop_reaches (pf : Pathfinder) (sqrtFn : ℚ → ℚ)
    (sx sy ex ey : ℤ) (hfree : ∀ x y, pf.isBlocked x y = false)
    (hex : pf.isValid ex ey = true) :
    ∀ (fuel : ℕ) (opn : List Node) (closed : List (ℤ × ℤ)),
      AInv pf sx sy ex ey opn closed →
      pf.width * pf.height + 1 ≤ closed.length + fuel →
      ∃ cells : List (ℤ × ℤ),
        aStarLoop pf sqrtFn ex ey fuel opn closed = cells.map (worldPt pf) ∧
          cells ≠ [] ∧ cells.head? = some (sx, sy) ∧
          cells.getLast? = some (ex, ey) ∧
          List.Chain' (fun p q => (q.1 - p.1, q.2 - p.2) ∈ neighborOffsets)
            cells := by
  intro fuel
  induction fuel with
  | zero =>
    intro opn closed inv hcount
    exfalso
    have := closed_length_le pf closed inv.closedNodup inv.closedValid
    omega
  | succ fuel ih =>
    intro opn closed inv hcount
    by_cases hempty : opn.isEmpty = true
    · exfalso
      have hopn : opn = [] := List.isEmpty_iff.mp hempty
      have hstart : (sx, sy) ∈ closed := by
        rcases inv.startIn with h | h
        · exact h
        · rw [hopn] at h
          simp [cellsOf] at h
      have hsxvalid : pf.isValid sx sy = true := inv.closedValid _ hstart
      have hcl : ∀ c ∈ closed, ∀ off ∈ neighborOffsets,
          pf.isValid (c.1 + off.1) (c.2 + off.2) = true →
          (c.1 + off.1, c.2 + off.2) ∈ closed := by
        intro c hc off hoff hval
        rcases inv.closedClosure c hc off hoff hval with h | h
        · exact h
        · rw [hopn] at h
          simp [cellsOf] at h
      have hgoal : (ex, ey) ∈ closed :=
        closure_reaches pf closed hcl
          ((ex - sx).natAbs + (ey - sy).natAbs) (sx, sy) (ex, ey) le_rfl
          hsxvalid hex hstart
      exact inv.goalNotClosed hgoal
    · have hne : opn ≠ [] := fun h => hempty (by rw [h]; rfl)
      have hli : lowestFIdx opn < opn.length := lowestFIdx_lt opn hne
      have hgetD : opn.getD (lowestFIdx opn) default
          = opn.get ⟨lowestFIdx opn, hli⟩ :=
        List.getD_eq_getElem opn default hli
      by_cases hgoal : (opn.get ⟨lowestFIdx opn, hli⟩).x = ex ∧
          (opn.get ⟨lowestFIdx opn, hli⟩).y = ey
      · refine ⟨(reconstructCells (opn.get ⟨lowestFIdx opn, hli⟩)).reverse,
          ?_, ?_, ?_, ?_, ?_⟩
        · show aStarLoop pf sqrtFn ex ey (fuel + 1) opn closed = _
          simp only [aStarLoop]
          rw [if_neg hempty]
          rw [hgetD, if_pos hgoal]
          rw [reconstruct_eq_map, ← List.map_reverse]
        · simp [reconstructCells_ne_nil]
        · rw [List.head?_reverse]
          exact reconstructCells_last sx sy _
            (inv.opnChain _ (List.get_mem _ _ _))
        · rw [List.getLast?_reverse, reconstructCells_head, hgoal.1, hgoal.2]
        · rw [List.chain'_reverse]
          exact List.Chain'.imp (fun a b hr => hr)
            (reconstructCells_chain sx sy _
              (inv.opnChain _ (List.get_mem _ _ _)))
      · have inv' := AInv_step pf sqrtFn sx sy ex ey opn closed hfree inv
          (lowestFIdx opn) hli hgoal
        have hcurnotcl := inv.opnNotClosed _
          (List.get_mem opn (lowestFIdx opn) hli)
        obtain ⟨cells, heq, hne', hh, hl, hch⟩ := ih _ _ inv' (by
          rw [List.length_cons]
          omega)
        refine ⟨cells, ?_, hne', hh, hl, hch⟩
        show aStarLoop pf sqrtFn ex ey (fuel + 1) opn closed = _
        simp only [aStarLoop]
        rw [if_neg hempty]
        rw [hgetD, if_neg hgoal]
        exact heq

/-- A grid whose backing array holds only zeros never reports a blocked
cell. -/
theorem isBlocked_of_free (pf : Pathfinder) (hfree : ∀ a ∈ pf.grid, a = 0) :
    ∀ x y, pf.isBlocked x y = false := by
  intro x y
  unfold Pathfinder.isBlocked jsGet
  by_cases h0 : 0 ≤ y * (pf.width : ℤ) + x
  · rw [if_pos h0]
    rcases hget : pf.grid.get? (y * (pf.width : ℤ) + x).toNat with - | v
    · rfl
    · have hv := hfree v (List.get?_mem hget)
      subst hv
      rfl
  · rw [if_neg h0]
    rfl

/-- The 8 neighbor offsets are exactly the nonzero King moves. -/
theorem neighborOffsets_spec : ∀ off ∈ neighborOffsets,
    off ≠ ((0 : ℤ), (0 : ℤ)) ∧ |off.1| ≤ 1 ∧ |off.2| ≤ 1 := by decide

/-- C5: on an obstacle-free grid (every backing array entry 0), for
endpoints mapping to in-range cells — all of which are mutually reachable
there — `findPath` returns a non-empty sequence whose first point is the
start cell's center and whose last point is the end cell's center, and the
raw pre-smoothing path visits cell centers whose consecutive cells are
8-adjacent with no diagonal step whose two flanking orthogonal cells are
blocked. -/
theorem findPath_complete_on_free_grid (pf : Pathfinder) (sqrtFn : ℚ → ℚ)
    (sX sZ eX eZ : ℚ) (hfree : ∀ a ∈ pf.grid, a = 0)
    (hs : pf.isValid (toCellX pf sX) (toCellZ pf sZ) = true)
    (he : pf.isValid (toCellX pf eX) (toCellZ pf eZ) = true) :
    pf.findPath sqrtFn sX sZ eX eZ ≠ [] ∧
      (pf.findPath sqrtFn sX sZ eX eZ).head?
        = some (worldPt pf (toCellX pf sX, toCellZ pf sZ)) ∧
      (pf.findPath sqrtFn sX sZ eX eZ).getLast?
        = some (worldPt pf (toCellX pf eX, toCellZ pf eZ)) ∧
      ∃ cells : List (ℤ × ℤ),
        findPathRaw pf sqrtFn sX sZ eX eZ = cells.map (worldPt pf) ∧
          List.Chain' (fun p q =>
            (p ≠ q ∧ |q.1 - p.1| ≤ 1 ∧ |q.2 - p.2| ≤ 1) ∧
              ¬ (|q.1 - p.1| = 1 ∧ |q.2 - p.2| = 1 ∧
                pf.isBlocked q.1 p.2 = true ∧ pf.isBlocked p.1 q.2 = true))
            cells := by
  have hfree' := isBlocked_of_free pf hfree
  have hinv : AInv pf (toCellX pf sX) (toCellZ pf sZ)
      (toCellX pf eX) (toCellZ pf eZ)
      [⟨toCellX pf sX, toCellZ pf sZ, 0, 0, 0, none⟩] [] := by
    constructor
    case opnValid =>
      intro n hn
      rw [List.mem_singleton.mp hn]
      exact hs
    case opnNotClosed => simp
    case opnNodup => simp [cellsOf]
    case closedNodup => exact List.nodup_nil
    case closedValid => simp
    case closedClosure => simp
    case startIn =>
      refine Or.inr ?_
      simp [cellsOf]
    case goalNotClosed => simp
    case opnChain =>
      intro n hn
      rw [List.mem_singleton.mp hn]
      exact ⟨rfl, rfl⟩
  obtain ⟨cells, heq, hne, hh, hl, hch⟩ :=
    aStarLoop_reaches pf sqrtFn (toCellX pf sX) (toCellZ pf sZ)
      (toCellX pf eX) (toCellZ pf eZ) hfree' he
      (pf.width * pf.height + 1)
      [⟨toCellX pf sX, toCellZ pf sZ, 0, 0, 0, none⟩] []
      hinv (by simp)
  have hraw : findPathRaw pf sqrtFn sX sZ eX eZ = cells.map (worldPt pf) := by
    unfold findPathRaw
    rw [if_neg (not_not_intro ⟨hs, he⟩), if_neg (by rw [hfree']; simp)]
    exact heq
  have hrawne : findPathRaw pf sqrtFn sX sZ eX eZ ≠ [] := by
    rw [hraw]
    simpa using hne
  refine ⟨?_, ?_, ?_, cells, hraw, ?_⟩
  · exact smoothPath_ne_nil pf hrawne
  · show (pf.smoothPath (findPathRaw pf sqrtFn sX sZ eX eZ)).head? = _
    rw [smoothPath_head?, hraw, List.head?_map, hh]
    rfl
  · show (pf.smoothPath (findPathRaw pf sqrtFn sX sZ eX eZ)).getLast? = _
    rw [smoothPath_getLast?, hraw, List.getLast?_map, hl]
    rfl
  · refine List.Chain'.imp ?_ hch
    intro p q hpq
    obtain ⟨hne0, h1, h2⟩ := neighborOffsets_spec _ hpq
    refine ⟨⟨?_, h1, h2⟩, ?_⟩
    · intro hpqeq
      exact hne0 (by rw [hpqeq]; simp)
    · intro hcorner
      rw [hfree'] at hcorner
      simp at hcorner

/-- C5, witness: the completeness statement evaluated between the centers
of the two end cells of the free 3×1 corridor. -/
theorem findPath_complete_witness :
    pfCorridor.findPath (fun q => q) (-1) 0 1 0 ≠ [] ∧
      (pfCorridor.findPath (fun q => q) (-1) 0 1 0).head?
        = some (worldPt pfCorridor
            (toCellX pfCorridor (-1), toCellZ pfCorridor 0)) ∧
      (pfCorridor.findPath (fun q => q) (-1) 0 1 0).getLast?
        = some (worldPt pfCorridor
            (toCellX pfCorridor 1, toCellZ pfCorridor 0)) ∧
      ∃ cells : List (ℤ × ℤ),
        findPathRaw pfCorridor (fun q => q) (-1) 0 1 0
            = cells.map (worldPt pfCorridor) ∧
          List.Chain' (fun p q =>
            (p ≠ q ∧ |q.1 - p.1| ≤ 1 ∧ |q.2 - p.2| ≤ 1) ∧
              ¬ (|q.1 - p.1| = 1 ∧ |q.2 - p.2| = 1 ∧
                pfCorridor.isBlocked q.1 p.2 = true ∧
                pfCorridor.isBlocked p.1 q.2 = true))
            cells :=
  findPath_complete_on_free_grid pfCorridor (fun q => q) (-1) 0 1 0
    (by decide) (by decide) (by decide)

end SC2
